import Mathlib

/-!
SpartanGold proof-of-storage miner: FakeMemory and Miner.

A shallow embedding of `src/fakeMemory.js` and `src/miner.js`.

* JavaScript values are the inductive type `Value`; a primitive string and a
  `String` wrapper object are different constructors, because
  `instanceof String` and `===` tell them apart.
* A thrown JavaScript exception is the `error` case of `Except JSError`.
* The two `while` loops of `syncTransactions` are not structurally
  terminating, so they take a fuel argument; `none` means the fuel ran out.
* A value of `Math.random()` is a fraction `num / den`; the products and sums
  computed from it are rounded as IEEE 754 doubles (`roundDouble`).
* `console.log` and `this.log` output is not modelled.
-/

namespace SpartanGold

/-! ## JavaScript values -/

/-- The JavaScript values that the store can be handed. `str` is a primitive
string, `strObj` a `String` wrapper object (made by `new String(s)`) and `obj`
any other object; objects carry the reference that `===` compares. -/
inductive Value where
  | undefined
  | null
  | bool (b : Bool)
  | num (n : Int)
  | nan
  | str (s : String)
  | strObj (ref : Nat) (s : String)
  | obj (ref : Nat)
  deriving DecidableEq, Repr

/-- The exceptions the modelled code can throw. -/
inductive JSError where
  | referenceError (name : String)
  | typeError (property : String)
  deriving DecidableEq, Repr

deriving instance DecidableEq for Except

/-- JavaScript `a === b`: primitives compare by value, `NaN` equals nothing,
objects compare by reference. -/
def strictEq : Value → Value → Bool
  | .undefined, .undefined => true
  | .null, .null => true
  | .bool a, .bool b => a == b
  | .num a, .num b => a == b
  | .str a, .str b => a == b
  | .strObj r _, .strObj q _ => r == q
  | .obj r, .obj q => r == q
  | _, _ => false

/-- JavaScript `v instanceof String`: true for `String` wrapper objects only,
false for every primitive, primitive strings included. -/
def instanceofString : Value → Bool
  | .strObj _ _ => true
  | _ => false

/-- Search of `Array.prototype.indexOf` from position `i` on. -/
def indexOfFrom (v : Value) : List Value → Int → Int
  | [], _ => -1
  | x :: xs, i => if strictEq x v then i else indexOfFrom v xs (i + 1)

/-- JavaScript `xs.indexOf(v)`: the first index holding a value `=== v`,
or `-1`. -/
def indexOf (xs : List Value) (v : Value) : Int :=
  indexOfFrom v xs 0

/-- JavaScript `xs.splice(start, deleteCount)` on a dense array, giving the
array that is left: a negative `start` counts from the end, and both
arguments are clamped to the array. -/
def splice (xs : List Value) (start deleteCount : Int) : List Value :=
  let len : Int := xs.length
  let s : Nat := (if start < 0 then max (len + start) 0 else min start len).toNat
  let d : Nat := (min (max deleteCount 0) (len - s)).toNat
  xs.take s ++ xs.drop (s + d)

/-! ## fakeMemory.js -/

/-- The state of a `FakeMemory` object: the array `this.memory`. The generator
`this.addressGenerator` is created by the constructor and never used again. -/
structure FakeMemory where
  memory : List Value
  deriving DecidableEq, Repr

/-- The effect of `new FakeMemory()`: `this.memory = []`. -/
def FakeMemory.new : FakeMemory :=
  { memory := [] }

/-- The method `findAddress(string)` of `fakeMemory.js`.

* `(string instanceof String) === false` returns `undefined`.
* `this.memory.indexOf(string) === -1` assigns that index, `-1`, to `address`
  and returns it.
* Otherwise the code evaluates `addressGenerator.next()`. No binding of the
  bare name `addressGenerator` exists in the module (the generator lives in
  the property `this.addressGenerator`), so a `ReferenceError` is thrown
  before `this.memory[address] = string` runs. -/
def FakeMemory.findAddress (fm : FakeMemory) (string : Value) :
    Except JSError (Value × FakeMemory) :=
  if instanceofString string = false then
    .ok (.undefined, fm)
  else if indexOf fm.memory string = -1 then
    .ok (.num (indexOf fm.memory string), fm)
  else
    .error (.referenceError "addressGenerator")

/-- The method `removeAddress(string)` of `fakeMemory.js`: returns `false`
when `indexOf` finds the value; otherwise splices at `indexOf(string)`, which
is `-1` there, and returns `true`. -/
def FakeMemory.removeAddress (fm : FakeMemory) (string : Value) : Bool × FakeMemory :=
  if indexOf fm.memory string ≠ -1 then
    (false, fm)
  else
    (true, { memory := splice fm.memory (indexOf fm.memory string) 1 })

/-- A value is registered in the store when the store's own lookup,
`this.memory.indexOf`, finds it. -/
def FakeMemory.registered (fm : FakeMemory) (c : Value) : Prop :=
  indexOf fm.memory c ≠ -1

instance (fm : FakeMemory) (c : Value) : Decidable (fm.registered c) := by
  unfold FakeMemory.registered; infer_instance

/-- The store with the entry of `c` removed, as the docstring of
`removeAddress` describes the effect: the first element that `===` `c` is
taken out and every other element stays. -/
def FakeMemory.withoutEntry (fm : FakeMemory) (c : Value) : FakeMemory :=
  { memory := fm.memory.eraseP fun x => strictEq x c }

/-- One call on the store's public interface. -/
inductive StoreCall where
  | findAddress (string : Value)
  | removeAddress (string : Value)
  deriving DecidableEq, Repr

/-- The store after one call; a call that throws leaves the store as it was. -/
def FakeMemory.step (fm : FakeMemory) : StoreCall → FakeMemory
  | .findAddress v =>
    match fm.findAddress v with
    | .ok (_, fm1) => fm1
    | .error _ => fm
  | .removeAddress v => (fm.removeAddress v).2

/-- The store after a sequence of calls, starting from `fm`. -/
def FakeMemory.run (fm : FakeMemory) (calls : List StoreCall) : FakeMemory :=
  calls.foldl FakeMemory.step fm

/-- Two successive calls `findAddress(c)`: both returned values, the store
between the calls and the store after the second. -/
def FakeMemory.findAddressTwice (fm : FakeMemory) (c : Value) :
    Except JSError (Value × Value × FakeMemory × FakeMemory) :=
  match fm.findAddress c with
  | .error e => .error e
  | .ok (a1, fm1) =>
    match fm1.findAddress c with
    | .error e => .error e
    | .ok (a2, fm2) => .ok (a1, a2, fm1, fm2)

/-! ## miner.js: data -/

/-- Transactions, identified by the object identity a JavaScript `Set`
compares. -/
abbrev Tx := Nat

/-- The object literal `startNewSearch` stores in `currentBlock.proof`. -/
structure Proof where
  string : Value
  signedString : Value
  sectorSize : Nat
  pubKey : Value
  memAddress : Value
  deriving DecidableEq, Repr

/-- The fields of a block that `miner.js` reads or writes. `proof` is `none`
when the property is `undefined`. -/
structure Block where
  id : Nat
  prevBlockHash : Nat
  chainLength : Nat
  transactions : List Tx
  proof : Option Proof
  deriving DecidableEq, Repr

/-- The map `this.blocks` from a block hash to the stored block. -/
abbrev BlockStore := List (Nat × Block)

/-- JavaScript `blocks.get(hash)`; `none` is `undefined`. -/
def BlockStore.get (blocks : BlockStore) (hash : Nat) : Option Block :=
  blocks.lookup hash

/-- The pair `this.keyPair`. -/
structure KeyPair where
  publicKey : Value
  privateKey : Value
  deriving DecidableEq, Repr

/-- The event names of `Blockchain` that `miner.js` uses. -/
inductive Event where
  | startMining
  | postTransaction
  | proofVerified
  deriving DecidableEq, Repr

/-- The methods `miner.js` registers as listeners. -/
inductive Handler where
  | seal
  | addTransaction
  deriving DecidableEq, Repr

/-- One value returned by `Math.random()`: the number `num / den`. -/
structure Draw where
  num : Nat
  den : Nat
  deriving DecidableEq, Repr

/-- The draw lies in `[0, 1)`, as `Math.random()` promises. -/
def Draw.inUnit (r : Draw) : Prop :=
  r.num < r.den

instance (r : Draw) : Decidable r.inUnit := by
  unfold Draw.inUnit; infer_instance

/-- The draw is at most `1 - 2 ^ (-53)`, the largest double below `1`: every
double in `[0, 1)` is. -/
def Draw.belowOne (r : Draw) : Prop :=
  0 < r.den ∧ r.num * 2 ^ 53 ≤ (2 ^ 53 - 1) * r.den

instance (r : Draw) : Decidable r.belowOne := by
  unfold Draw.belowOne; infer_instance

/-- The draw is at most `1 - 2 ^ (-52)`, the largest multiple of `2 ^ (-52)`
below `1`. -/
def Draw.belowOne52 (r : Draw) : Prop :=
  0 < r.den ∧ r.num * 2 ^ 52 ≤ (2 ^ 52 - 1) * r.den

instance (r : Draw) : Decidable r.belowOne52 := by
  unfold Draw.belowOne52; infer_instance

/-! ## Double arithmetic

JavaScript numbers are IEEE 754 doubles, and `*` and `+` round their exact
result to the nearest double, a tie going to the double with an even
significand. Only nonnegative numbers below `2 ^ 53` occur in `miner.js`. -/

/-- The integer nearest to the fraction `p / d`, a tie going to the even
integer. -/
def roundHalfEven (p d : Nat) : Nat :=
  if 2 * (p % d) < d then p / d
  else if d < 2 * (p % d) then p / d + 1
  else if p / d % 2 = 0 then p / d
  else p / d + 1

/-- The search for the spacing of the doubles around `a / b`: starting from
`t`, the exponent goes up while `a / b * 2 ^ (t + 1)` stays below `2 ^ 53`, for
at most `fuel` steps. -/
def ulpShiftFrom (a b : Nat) : Nat → Nat → Nat
  | 0, t => t
  | fuel + 1, t => if a * 2 ^ (t + 1) < 2 ^ 53 * b then ulpShiftFrom a b fuel (t + 1) else t

/-- A nonnegative double, the number `mant / 2 ^ shift`. -/
structure Double where
  mant : Nat
  shift : Nat
  deriving DecidableEq, Repr

/-- The double nearest to the fraction `a / b`, for `0 ≤ a / b < 2 ^ 53`. The
doubles around `a / b` are the multiples of `2 ^ (-t)`, where `t` is the
largest exponent, `1074` at most, that keeps `a / b * 2 ^ t` below `2 ^ 53`
(53 significant bits; below `2 ^ (-1022)` the spacing stays `2 ^ (-1074)`);
`a / b * 2 ^ t` is rounded to the nearest integer, ties to even. -/
def roundDouble (a b : Nat) : Double :=
  if a = 0 then { mant := 0, shift := 0 }
  else
    { mant := roundHalfEven (a * 2 ^ ulpShiftFrom a b 1074 0) b
      shift := ulpShiftFrom a b 1074 0 }

/-- The number `Math.floor((r * k) + c)` for a draw `r`: the product is
rounded to a double, the sum is rounded to a double, and the floor is taken.
With `c = 0` the sum is the product itself. -/
def Draw.floorScaled (r : Draw) (k c : Nat) : Nat :=
  let prod := roundDouble (r.num * k) r.den
  let sum := roundDouble (prod.mant + c * 2 ^ prod.shift) (2 ^ prod.shift)
  sum.mant / 2 ^ sum.shift

/-- The draw is a double: rounding it to the nearest double gives the draw
itself. -/
def Draw.isDouble (r : Draw) : Prop :=
  0 < r.den ∧
    (roundDouble r.num r.den).mant * r.den = r.num * 2 ^ (roundDouble r.num r.den).shift

instance (r : Draw) : Decidable r.isDouble := by
  unfold Draw.isDouble; infer_instance

/-- The state of a `Miner` object, with the state of the collaborators it
writes to: `broadcasts` lists the calls of `this.net.broadcast`, `timers` the
events whose emission `setTimeout` has scheduled, and `randomCalls` counts the
calls of `Math.random()` made so far. -/
structure Miner where
  address : Value
  keyPair : KeyPair
  lastBlock : Option Block
  currentBlock : Option Block
  blocks : BlockStore
  memory : FakeMemory
  listeners : List (Event × Handler)
  timers : List Event
  broadcasts : List (Event × Option Block)
  randomCalls : Nat
  deriving DecidableEq, Repr

/-- The collaborators of `miner.js` whose code lies outside it:
`Blockchain.makeBlock`, `Blockchain.makeTransaction`, `Block.addTransaction`,
`Block.hasValidProof`, `utils.sign`, the inherited `Client.receiveBlock`
(`super.receiveBlock`, giving the accepted block or `null` and the client
state it leaves), and the sequence of values `Math.random()` returns. -/
structure Env where
  makeBlock : Value → Option Block → Block
  makeTransaction : Tx → Tx
  blockAddTransaction : Block → Tx → Block
  hasValidProof : Block → Bool
  sign : Value → Value → Value
  clientReceiveBlock : Miner → Block → Option Block × Miner
  random : Nat → Draw

/-! ## miner.js: JavaScript sets of transactions -/

/-- JavaScript `set.add(tx)` on a `Set` kept in insertion order. -/
def setAdd (s : List Tx) (tx : Tx) : List Tx :=
  if tx ∈ s then s else s ++ [tx]

/-- JavaScript `txs.forEach((tx) => set.add(tx))`. -/
def setAddAll (s txs : List Tx) : List Tx :=
  txs.foldl setAdd s

/-- JavaScript `set.delete(tx)`. -/
def setDelete (s : List Tx) (tx : Tx) : List Tx :=
  s.filter (fun x => x ≠ tx)

/-- JavaScript `txs.forEach((tx) => set.delete(tx))`. -/
def setDeleteAll (s txs : List Tx) : List Tx :=
  txs.foldl setDelete s

/-! ## miner.js: methods -/

/-- The character table of `seal`. -/
def characters : String :=
  "ABCDEFGHIJKLMNOPQRSTUVWXYZabcdefghijklmnopqrstuvwxyz0123456789"

/-- JavaScript `s.charAt(i)`: the one-character string at index `i`, or the
empty string when `i` is out of range. -/
def charAt (s : String) (i : Nat) : String :=
  match s.data.get? i with
  | some c => String.singleton c
  | none => ""

/-- The loop of `seal` that builds `randomString`: `n` rounds of
`randomString += characters.charAt(Math.floor(Math.random() * characters.length))`,
the first round taking draw number `start`. -/
def randomString (env : Env) (start : Nat) : Nat → String
  | 0 => ""
  | n + 1 =>
    randomString env start n ++
      charAt characters ((env.random (start + n)).floorScaled characters.length 0)

/-- The method `startNewSearch(txSet)`. The new block comes from
`Blockchain.makeBlock(this.address, this.lastBlock)`; `removeAddress` is
called with the `proof.string` of that new block when its `proof` is not
`undefined`; then the fresh proof literal is stored. -/
def Miner.startNewSearch (env : Env) (m : Miner) (txSet : List Tx) : Miner :=
  let made := env.makeBlock m.address m.lastBlock
  let filled := txSet.foldl (fun b tx => env.blockAddTransaction b (env.makeTransaction tx)) made
  let memory :=
    match filled.proof with
    | some p => (m.memory.removeAddress p.string).2
    | none => m.memory
  let proof : Proof :=
    { string := .str ""
      signedString := .str ""
      sectorSize := (env.random m.randomCalls).floorScaled 25 10
      pubKey := m.keyPair.publicKey
      memAddress := .str "" }
  { m with
    currentBlock := some { filled with proof := some proof }
    memory := memory
    randomCalls := m.randomCalls + 1 }

/-- The first part of `seal`, up to and including the three `console.log`
calls: it draws `sectorSize`, builds the random string, writes `string`,
`signedString` and `memAddress` into the proof, and evaluates
`this.memory.findAddress(this.currentBlock.proof.string)` for the log line. -/
def Miner.sealProof (env : Env) (m : Miner) : Except JSError Miner :=
  match m.currentBlock with
  | none => .error (.typeError "proof")
  | some cb =>
    match cb.proof with
    | none => .error (.typeError "sectorSize")
    | some p =>
      let sectorSize := (env.random m.randomCalls).floorScaled 25 10
      let content := randomString env (m.randomCalls + 1) sectorSize
      let sealed : Proof :=
        { p with
          sectorSize := sectorSize
          string := .str content
          signedString := env.sign m.keyPair.privateKey (.str content)
          memAddress := .str "0x8564BF3E" }
      match m.memory.findAddress sealed.string with
      | .error e => .error e
      | .ok (_, memory) =>
        .ok { m with
              currentBlock := some { cb with proof := some sealed }
              memory := memory
              randomCalls := m.randomCalls + 1 + sectorSize }

/-- The object `this.currentBlock.proof`, when both exist. -/
def Miner.currentProof (m : Miner) : Option Proof :=
  m.currentBlock.bind fun cb => cb.proof

/-- The method `announceProof()`:
`this.net.broadcast(Blockchain.PROOF_VERIFIED, this.currentBlock)`. The
current block is passed on as it is, `undefined` included; the method itself
throws nothing. -/
def Miner.announceProof (m : Miner) : Except JSError Miner :=
  .ok { m with broadcasts := m.broadcasts ++ [(Event.proofVerified, m.currentBlock)] }

/-- What a run of `syncTransactions` produced: the returned set and the number
of `this.blocks.get` calls made for the local side and for the candidate
side. -/
structure SyncResult where
  residual : List Tx
  cbLookups : Nat
  nbLookups : Nat
  deriving DecidableEq, Repr

/-- The first loop of `syncTransactions`:
`while (nb.chainLength > cb.chainLength)`. It gives the block `nb` the loop
ends on, the set `nbTxs` and the number of lookups made. Reading
`nb.chainLength` of an unresolved `nb` throws a `TypeError`. -/
def rollBackLoop (blocks : BlockStore) (cb : Block) :
    Nat → Option Block → List Tx → Nat → Option (Except JSError (Block × List Tx × Nat))
  | 0, _, _, _ => none
  | _ + 1, none, _, _ => some (.error (.typeError "chainLength"))
  | fuel + 1, some nb, nbTxs, lookups =>
    if nb.chainLength > cb.chainLength then
      rollBackLoop blocks cb fuel (blocks.get nb.prevBlockHash)
        (setAddAll nbTxs nb.transactions) (lookups + 1)
    else
      some (.ok (nb, nbTxs, lookups))

/-- The second loop of `syncTransactions`: `while (cb && cb.id !== nb.id)`.
An unresolved `cb` ends the loop; with `cb` resolved, reading `nb.id` of an
unresolved `nb` throws a `TypeError`. It gives `cbTxs`, `nbTxs` and the number
of lookups made on each side. -/
def stepBackLoop (blocks : BlockStore) :
    Nat → Option Block → Option Block → List Tx → List Tx → Nat →
      Option (Except JSError (List Tx × List Tx × Nat))
  | 0, _, _, _, _, _ => none
  | _ + 1, none, _, cbTxs, nbTxs, lookups => some (.ok (cbTxs, nbTxs, lookups))
  | _ + 1, some _, none, _, _, _ => some (.error (.typeError "id"))
  | fuel + 1, some cb, some nb, cbTxs, nbTxs, lookups =>
    if cb.id ≠ nb.id then
      stepBackLoop blocks fuel (blocks.get cb.prevBlockHash) (blocks.get nb.prevBlockHash)
        (setAddAll cbTxs cb.transactions) (setAddAll nbTxs nb.transactions) (lookups + 1)
    else
      some (.ok (cbTxs, nbTxs, lookups))

/-- The body of `syncTransactions(nb)` for the current block `cb`, with the
lookup counts. -/
def syncWalk (blocks : BlockStore) (cb nb : Block) (fuel : Nat) :
    Option (Except JSError SyncResult) :=
  match rollBackLoop blocks cb fuel (some nb) [] 0 with
  | none => none
  | some (.error e) => some (.error e)
  | some (.ok (nb1, nbTxs1, n1)) =>
    match stepBackLoop blocks fuel (some cb) (some nb1) [] nbTxs1 0 with
    | none => none
    | some (.error e) => some (.error e)
    | some (.ok (cbTxs, nbTxs, n2)) =>
      some (.ok { residual := setDeleteAll cbTxs nbTxs, cbLookups := n2, nbLookups := n1 + n2 })

/-- The method `syncTransactions(nb)`: `cb` starts as `this.currentBlock`, and
reading `cb.chainLength` of an undefined current block throws. -/
def Miner.syncTransactions (m : Miner) (fuel : Nat) (nb : Block) :
    Option (Except JSError (List Tx)) :=
  match m.currentBlock with
  | none => some (.error (.typeError "chainLength"))
  | some cb =>
    match syncWalk m.blocks cb nb fuel with
    | none => none
    | some (.error e) => some (.error e)
    | some (.ok r) => some (.ok r.residual)

/-- The part of `receiveBlock` that runs when the test
`this.currentBlock && b.chainLength >= this.currentBlock.chainLength`
succeeds: `syncTransactions(b)`, then `startNewSearch` with its result. -/
def Miner.cutOver (env : Env) (m : Miner) (fuel : Nat) (b : Block) :
    Option (Except JSError Miner) :=
  match m.syncTransactions fuel b with
  | none => none
  | some (.error e) => some (.error e)
  | some (.ok txSet) => some (.ok (m.startNewSearch env txSet))

/-- The method `receiveBlock(s)`: `super.receiveBlock(s)` first; `null` ends
the call; otherwise the chain-length test decides whether to cut over. -/
def Miner.receiveBlock (env : Env) (m : Miner) (fuel : Nat) (s : Block) :
    Option (Except JSError Miner) :=
  match env.clientReceiveBlock m s with
  | (none, m1) => some (.ok m1)
  | (some b, m1) =>
    match m1.currentBlock with
    | none => some (.ok m1)
    | some cb =>
      if b.chainLength ≥ cb.chainLength then m1.cutOver env fuel b else some (.ok m1)

/-- The method `seal()`: `sealProof`, then, when
`this.currentBlock.hasValidProof()` holds, `announceProof()`,
`receiveBlock(this.currentBlock)` and `startNewSearch()`. Nothing runs when
the proof is not valid. -/
def Miner.seal (env : Env) (m : Miner) (fuel : Nat) : Option (Except JSError Miner) :=
  match m.sealProof env with
  | .error e => some (.error e)
  | .ok m1 =>
    match m1.currentBlock with
    | none => some (.error (.typeError "hasValidProof"))
    | some cb =>
      if env.hasValidProof cb then
        match m1.announceProof with
        | .error e => some (.error e)
        | .ok m2 =>
          match m2.receiveBlock env fuel cb with
          | none => none
          | some (.error e) => some (.error e)
          | some (.ok m3) => some (.ok (m3.startNewSearch env []))
      else
        some (.ok m1)

/-- The argument of the `removeAddress` call that `startNewSearch(txSet)`
makes, `none` when it makes no call: the `proof.string` of the block that
`Blockchain.makeBlock` has just returned and that `this.currentBlock` now
names. -/
def Miner.releasedAtStart (env : Env) (m : Miner) (txSet : List Tx) : Option Value :=
  let made := env.makeBlock m.address m.lastBlock
  let filled := txSet.foldl (fun b tx => env.blockAddTransaction b (env.makeTransaction tx)) made
  filled.proof.map fun p => p.string

/-- The method `initialize()`: `startNewSearch()`, the registration of `seal`
for `Blockchain.START_MINING` and of `addTransaction` for
`Blockchain.POST_TRANSACTION`, and the `setTimeout` call that schedules one
emission of `Blockchain.START_MINING`. -/
def Miner.initialize (env : Env) (m : Miner) : Miner :=
  let started := m.startNewSearch env []
  { started with
    listeners := started.listeners ++
      [(Event.startMining, Handler.seal), (Event.postTransaction, Handler.addTransaction)]
    timers := started.timers ++ [Event.startMining] }

/-- The emission of `Blockchain.START_MINING`: `seal` runs once for each time
it is registered for that event. -/
def Miner.emitStartMining (env : Env) (fuel : Nat) : List (Event × Handler) → Miner →
    Option (Except JSError Miner)
  | [], m => some (.ok m)
  | (Event.startMining, Handler.seal) :: rest, m =>
    match m.seal env fuel with
    | none => none
    | some (.error e) => some (.error e)
    | some (.ok m1) => Miner.emitStartMining env fuel rest m1
  | _ :: rest, m => Miner.emitStartMining env fuel rest m

/-- The oldest pending timer fires: it leaves `timers`, and a scheduled
`Blockchain.START_MINING` is emitted to the listeners. -/
def Miner.fireTimer (env : Env) (m : Miner) (fuel : Nat) : Option (Except JSError Miner) :=
  match m.timers with
  | [] => some (.ok m)
  | Event.startMining :: rest =>
    Miner.emitStartMining env fuel m.listeners { m with timers := rest }
  | _ :: rest => some (.ok { m with timers := rest })

/-- The number of pending emissions of `Blockchain.START_MINING`. -/
def Miner.pendingStartMining (m : Miner) : Nat :=
  m.timers.count Event.startMining

/-- The first loop of `syncTransactions` as in `rollBackLoop`, giving the
number of lookups made whatever the outcome. -/
def rollBackTrace (blocks : BlockStore) (cb : Block) :
    Nat → Option Block → List Tx → Nat → Option (Except JSError (Block × List Tx)) × Nat
  | 0, _, _, lookups => (none, lookups)
  | _ + 1, none, _, lookups => (some (.error (.typeError "chainLength")), lookups)
  | fuel + 1, some nb, nbTxs, lookups =>
    if nb.chainLength > cb.chainLength then
      rollBackTrace blocks cb fuel (blocks.get nb.prevBlockHash)
        (setAddAll nbTxs nb.transactions) (lookups + 1)
    else
      (some (.ok (nb, nbTxs)), lookups)

/-- The second loop of `syncTransactions` as in `stepBackLoop`, giving the
number of lookups made on each side whatever the outcome. -/
def stepBackTrace (blocks : BlockStore) :
    Nat → Option Block → Option Block → List Tx → List Tx → Nat →
      Option (Except JSError (List Tx × List Tx)) × Nat
  | 0, _, _, _, _, lookups => (none, lookups)
  | _ + 1, none, _, cbTxs, nbTxs, lookups => (some (.ok (cbTxs, nbTxs)), lookups)
  | _ + 1, some _, none, _, _, lookups => (some (.error (.typeError "id")), lookups)
  | fuel + 1, some cb, some nb, cbTxs, nbTxs, lookups =>
    if cb.id ≠ nb.id then
      stepBackTrace blocks fuel (blocks.get cb.prevBlockHash) (blocks.get nb.prevBlockHash)
        (setAddAll cbTxs cb.transactions) (setAddAll nbTxs nb.transactions) (lookups + 1)
    else
      (some (.ok (cbTxs, nbTxs)), lookups)

/-- How a run of `syncTransactions` ended (`none`: the fuel ran out, `error`:
it threw, `ok`: it returned the set) and the number of `this.blocks.get`
calls it had made by then for the local side and for the candidate side. -/
structure WalkTrace where
  outcome : Option (Except JSError (List Tx))
  cbLookups : Nat
  nbLookups : Nat
  deriving DecidableEq, Repr

/-- The body of `syncTransactions(nb)` for the current block `cb` as in
`syncWalk`, with the lookup counts of every run. -/
def syncTrace (blocks : BlockStore) (cb nb : Block) (fuel : Nat) : WalkTrace :=
  match rollBackTrace blocks cb fuel (some nb) [] 0 with
  | (none, n1) => { outcome := none, cbLookups := 0, nbLookups := n1 }
  | (some (.error e), n1) => { outcome := some (.error e), cbLookups := 0, nbLookups := n1 }
  | (some (.ok (nb1, nbTxs1)), n1) =>
    match stepBackTrace blocks fuel (some cb) (some nb1) [] nbTxs1 0 with
    | (none, n2) => { outcome := none, cbLookups := n2, nbLookups := n1 + n2 }
    | (some (.error e), n2) =>
      { outcome := some (.error e), cbLookups := n2, nbLookups := n1 + n2 }
    | (some (.ok (cbTxs, nbTxs)), n2) =>
      { outcome := some (.ok (setDeleteAll cbTxs nbTxs)), cbLookups := n2, nbLookups := n1 + n2 }

/-! ## Chains in the block store -/

/-- The blocks `bs`, newest first, form a branch on top of the block `A`: the
predecessor lookup of each block resolves to the next block of the list, the
one of the last block resolves to `A`, and every step lowers `chainLength` by
one. The tip of the branch is `bs.headD A`. -/
def IsBranch (blocks : BlockStore) (A : Block) : List Block → Prop
  | [] => True
  | b :: rest =>
    blocks.get b.prevBlockHash = some (rest.headD A) ∧
    b.chainLength = (rest.headD A).chainLength + 1 ∧
    IsBranch blocks A rest

/-- Deciding `IsBranch`, block by block. -/
def IsBranch.decide (blocks : BlockStore) (A : Block) :
    (bs : List Block) → Decidable (IsBranch blocks A bs)
  | [] => isTrue trivial
  | _ :: rest =>
    have := IsBranch.decide blocks A rest
    inferInstanceAs (Decidable (_ ∧ _ ∧ _))

instance (blocks : BlockStore) (A : Block) (bs : List Block) :
    Decidable (IsBranch blocks A bs) :=
  IsBranch.decide blocks A bs

/-- The transactions contained in the blocks `bs`. -/
def txsOf (bs : List Block) : List Tx :=
  bs.flatMap fun b => b.transactions

/-! ## Concrete scenarios -/

/-- A genesis block. -/
def genesisBlock : Block :=
  { id := 1, prevBlockHash := 0, chainLength := 0, transactions := [], proof := none }

/-- Collaborators for the scenarios: `makeBlock` builds an empty block on top
of the given one, no proof is valid, every received block is accepted, stored
and made the last block when it is longer, and the `n`-th draw is
`((7 n + 3) mod 10) / 10`. -/
def sampleEnv : Env :=
  { makeBlock := fun _ last =>
      match last with
      | some b =>
        { id := b.id + 100, prevBlockHash := b.id, chainLength := b.chainLength + 1,
          transactions := [], proof := none }
      | none => genesisBlock
    makeTransaction := fun tx => tx
    blockAddTransaction := fun b tx =>
      if tx ∈ b.transactions then b else { b with transactions := b.transactions ++ [tx] }
    hasValidProof := fun _ => false
    sign := fun _ v => v
    clientReceiveBlock := fun m b =>
      (some b,
        { m with
          blocks := (b.id, b) :: m.blocks
          lastBlock :=
            match m.lastBlock with
            | some last => if last.chainLength < b.chainLength then some b else some last
            | none => some b })
    random := fun n => { num := (7 * n + 3) % 10, den := 10 } }

/-- The collaborators of `sampleEnv` with another sequence of draws. -/
def sampleEnvB : Env :=
  { sampleEnv with random := fun n => { num := (3 * n + 1) % 10, den := 10 } }

/-- A miner as its constructor leaves it, knowing the genesis block only. -/
def newMiner : Miner :=
  { address := .str "miner"
    keyPair := { publicKey := .str "pub", privateKey := .str "priv" }
    lastBlock := some genesisBlock
    currentBlock := none
    blocks := [(1, genesisBlock)]
    memory := FakeMemory.new
    listeners := []
    timers := []
    broadcasts := []
    randomCalls := 0 }

/-- The miner `newMiner` after `startNewSearch()`. -/
def sampleMiner : Miner :=
  newMiner.startNewSearch sampleEnv []

/-- The common ancestor of the fork scenario, at chain length 3. -/
def ancestorA : Block :=
  { id := 4, prevBlockHash := 3, chainLength := 3, transactions := [10], proof := none }

/-- The local block at chain length 4, holding transaction 1. -/
def local4 : Block :=
  { id := 5, prevBlockHash := 4, chainLength := 4, transactions := [1], proof := none }

/-- The local current block at chain length 5, holding transaction 2. -/
def local5 : Block :=
  { id := 6, prevBlockHash := 5, chainLength := 5, transactions := [2],
    proof := some { string := .str "", signedString := .str "", sectorSize := 17,
                    pubKey := .str "pub", memAddress := .str "" } }

/-- The candidate branch: blocks at chain lengths 4, 5 and 6 on top of
`ancestorA`; the one at 5 holds transaction 3. -/
def cand4 : Block :=
  { id := 7, prevBlockHash := 4, chainLength := 4, transactions := [], proof := none }

/-- See `cand4`. -/
def cand5 : Block :=
  { id := 8, prevBlockHash := 7, chainLength := 5, transactions := [3], proof := none }

/-- See `cand4`. -/
def cand6 : Block :=
  { id := 9, prevBlockHash := 8, chainLength := 6, transactions := [], proof := none }

/-- The block store of the fork scenario: the chain from the genesis block to
`ancestorA`, the accepted local block and the candidate branch. -/
def forkStore : BlockStore :=
  [ (1, genesisBlock),
    (2, { id := 2, prevBlockHash := 1, chainLength := 1, transactions := [], proof := none }),
    (3, { id := 3, prevBlockHash := 2, chainLength := 2, transactions := [], proof := none }),
    (4, ancestorA), (5, local4), (7, cand4), (8, cand5), (9, cand6) ]

/-- A miner working on `local5` on top of `local4`. -/
def forkMiner : Miner :=
  { newMiner with lastBlock := some local4, currentBlock := some local5, blocks := forkStore }

/-- A candidate at chain length 7 whose predecessor is not in the store. -/
def orphan7 : Block :=
  { id := 20, prevBlockHash := 999, chainLength := 7, transactions := [4], proof := none }

/-- A candidate at chain length 5 whose predecessor is not in the store. -/
def orphan5 : Block :=
  { id := 21, prevBlockHash := 999, chainLength := 5, transactions := [4], proof := none }

/-- A miner whose current block has a predecessor that is not in the store. -/
def rootlessMiner : Miner :=
  { forkMiner with currentBlock := some { local5 with prevBlockHash := 998 } }

/-- The collaborators of `sampleEnv` with every proof valid. -/
def sampleEnvValid : Env :=
  { sampleEnv with hasValidProof := fun _ => true }

/-- The collaborators of `sampleEnv` with a `makeBlock` whose blocks come with
a proof object of their own, holding the string `"made"`. -/
def sampleEnvProof : Env :=
  { sampleEnv with
    makeBlock := fun a last =>
      { sampleEnv.makeBlock a last with
        proof := some { string := .str "made", signedString := .str "", sectorSize := 0,
                        pubKey := .str "", memAddress := .str "" } } }

/-- The collaborators of `sampleEnv` with draws that are doubles: the `n`-th
draw is `((7 n + 3) mod 16) / 16`. -/
def sampleEnvD : Env :=
  { sampleEnv with random := fun n => { num := (7 * n + 3) % 16, den := 16 } }

/-- The largest double below `1`. -/
def drawMax53 : Draw :=
  { num := 2 ^ 53 - 1, den := 2 ^ 53 }

/-- The largest multiple of `2 ^ (-52)` below `1`. -/
def drawMax52 : Draw :=
  { num := 2 ^ 52 - 1, den := 2 ^ 52 }

/-- The draw `0`. -/
def drawZero : Draw :=
  { num := 0, den := 1 }

/-- The blocks of the fork scenario: the current block, the candidate and
every stored block. -/
def forkChains : List Block :=
  local5 :: cand6 :: forkStore.map Prod.snd

/-- The miner `newMiner` after `initialize()`, where no proof is valid. -/
def startedMiner : Miner :=
  Miner.initialize sampleEnv newMiner

/-- The miner `newMiner` after `initialize()`, where every proof is valid. -/
def startedMinerValid : Miner :=
  Miner.initialize sampleEnvValid newMiner

/-! ## FakeMemory: basic facts -/

theorem indexOf_nil (v : Value) : indexOf [] v = -1 := rfl

theorem splice_nil (start deleteCount : Int) : splice [] start deleteCount = [] := by
  simp [splice]

/-- A primitive string is never `instanceof String`, so `findAddress` returns
`undefined` for it and leaves the store alone. -/
theorem findAddress_primitive (fm : FakeMemory) (s : String) :
    fm.findAddress (.str s) = .ok (.undefined, fm) := by
  simp [FakeMemory.findAddress, instanceofString]

/-- A call of `findAddress` that returns has not changed the store. -/
theorem findAddress_store_eq {fm fm1 : FakeMemory} {c a : Value}
    (h : fm.findAddress c = .ok (a, fm1)) : fm1 = fm := by
  unfold FakeMemory.findAddress at h
  split at h
  · cases h; rfl
  · split at h
    · cases h; rfl
    · cases h

/-- The only value `findAddress` returns for a `String` object. -/
theorem findAddress_strObj_value {fm fm1 : FakeMemory} {r : Nat} {s : String} {a : Value}
    (h : fm.findAddress (.strObj r s) = .ok (a, fm1)) : a = .num (-1) := by
  unfold FakeMemory.findAddress at h
  simp only [instanceofString] at h
  split at h
  · rename_i h0
    cases h0
  · split at h
    · rename_i h1
      rw [h1] at h
      cases h; rfl
    · cases h

/-- The return value of `removeAddress` is the negation of the lookup. -/
theorem removeAddress_fst (fm : FakeMemory) (c : Value) :
    (fm.removeAddress c).1 = true ↔ ¬ fm.registered c := by
  unfold FakeMemory.removeAddress FakeMemory.registered
  split <;> simp_all

/-- A registered value stays in the store: `removeAddress` leaves `memory` as
it is when `indexOf` finds the value. -/
theorem removeAddress_registered (fm : FakeMemory) (c : Value) (h : fm.registered c) :
    fm.removeAddress c = (false, fm) := by
  unfold FakeMemory.registered at h
  simp [FakeMemory.removeAddress, h]

/-- The call `splice(-1, 1)` removes the last element. -/
theorem splice_neg_one (xs : List Value) : splice xs (-1) 1 = xs.dropLast := by
  cases xs with
  | nil => simp [splice]
  | cons x xs =>
    have h1 : max ((↑(xs.length) : Int) + 1 + -1) 0 = xs.length := by omega
    have h2 : min (1 : Int) (↑(xs.length) + 1 - ↑(xs.length)) = 1 := by omega
    simp [splice, h1, h2, List.dropLast_eq_take]

/-- For a value that is not registered, `removeAddress` removes the last
element of `memory`, whatever it is. -/
theorem removeAddress_not_registered (fm : FakeMemory) (c : Value) (h : ¬ fm.registered c) :
    fm.removeAddress c = (true, { memory := fm.memory.dropLast }) := by
  unfold FakeMemory.registered at h
  have h1 : indexOf fm.memory c = -1 := by simpa using h
  simp [FakeMemory.removeAddress, h1, splice_neg_one]

/-- No call changes an empty `memory`. -/
theorem step_memory_nil (fm : FakeMemory) (call : StoreCall) (h : fm.memory = []) :
    (fm.step call).memory = [] := by
  cases call with
  | findAddress v =>
    cases hf : fm.findAddress v with
    | error e => simpa [FakeMemory.step, hf] using h
    | ok r =>
      obtain ⟨a, fm1⟩ := r
      have := findAddress_store_eq hf
      simpa [FakeMemory.step, hf, this] using h
  | removeAddress v =>
    have hn : ¬ fm.registered v := by simp [FakeMemory.registered, h, indexOf_nil]
    simp [FakeMemory.step, removeAddress_not_registered fm v hn, h]

/-- In every state reached from a store with empty `memory`, `memory` is
empty. -/
theorem run_memory_nil (calls : List StoreCall) (fm : FakeMemory) (h : fm.memory = []) :
    (fm.run calls).memory = [] := by
  induction calls generalizing fm with
  | nil => simpa [FakeMemory.run] using h
  | cons call rest ih =>
    simpa [FakeMemory.run] using ih (fm.step call) (step_memory_nil fm call h)

/-- With an empty `memory`, `findAddress` returns without changing the store:
`undefined`, or `-1` for a `String` object. -/
theorem findAddress_of_memory_nil (fm : FakeMemory) (c : Value) (h : fm.memory = []) :
    ∃ a, fm.findAddress c = .ok (a, fm) := by
  unfold FakeMemory.findAddress
  split
  · exact ⟨_, rfl⟩
  · simp [h, indexOf_nil]

/-- A proof that `sealProof` has written holds the constant address, and the
store returns `undefined` for its content. -/
theorem sealProof_memAddress {env : Env} {m m1 : Miner} (h : m.sealProof env = .ok m1) :
    ∃ p s, m1.currentProof = some p ∧ p.string = .str s ∧
      p.memAddress = .str "0x8564BF3E" ∧
      m1.memory.findAddress p.string = .ok (.undefined, m1.memory) := by
  unfold Miner.sealProof at h
  split at h
  · cases h
  · split at h
    · cases h
    · simp only [findAddress_primitive] at h
      cases h
      exact ⟨_, _, rfl, rfl, rfl, findAddress_primitive _ _⟩

/-! ## JavaScript sets: membership -/

theorem mem_setAdd (s : List Tx) (tx x : Tx) : x ∈ setAdd s tx ↔ x ∈ s ∨ x = tx := by
  unfold setAdd
  split
  · constructor
    · intro h; exact Or.inl h
    · rintro (h | h)
      · exact h
      · subst h; assumption
  · simp

theorem mem_setAddAll (txs s : List Tx) (x : Tx) :
    x ∈ setAddAll s txs ↔ x ∈ s ∨ x ∈ txs := by
  induction txs generalizing s with
  | nil => simp [setAddAll]
  | cons t rest ih =>
    have h := ih (setAdd s t)
    simp only [setAddAll, List.foldl_cons] at h ⊢
    rw [h, mem_setAdd]
    simp only [List.mem_cons]
    tauto

theorem mem_setDelete (s : List Tx) (tx x : Tx) : x ∈ setDelete s tx ↔ x ∈ s ∧ x ≠ tx := by
  simp [setDelete]

theorem mem_setDeleteAll (txs s : List Tx) (x : Tx) :
    x ∈ setDeleteAll s txs ↔ x ∈ s ∧ x ∉ txs := by
  induction txs generalizing s with
  | nil => simp [setDeleteAll]
  | cons t rest ih =>
    have h := ih (setDelete s t)
    simp only [setDeleteAll, List.foldl_cons] at h ⊢
    rw [h, mem_setDelete]
    simp only [List.mem_cons]
    tauto

theorem nodup_setAdd (s : List Tx) (tx : Tx) (h : s.Nodup) : (setAdd s tx).Nodup := by
  unfold setAdd
  split
  · exact h
  · rename_i hn
    exact List.Nodup.append h (List.nodup_singleton tx) (by simpa using hn)

theorem nodup_setAddAll (txs s : List Tx) (h : s.Nodup) : (setAddAll s txs).Nodup := by
  induction txs generalizing s with
  | nil => simpa [setAddAll] using h
  | cons t rest ih =>
    have := ih (setAdd s t) (nodup_setAdd s t h)
    simpa [setAddAll] using this

theorem nodup_setDeleteAll (txs s : List Tx) (h : s.Nodup) : (setDeleteAll s txs).Nodup := by
  induction txs generalizing s with
  | nil => simpa [setDeleteAll] using h
  | cons t rest ih =>
    have := ih (setDelete s t) (List.Nodup.filter _ h)
    simpa [setDeleteAll] using this

theorem mem_txsOf (bs : List Block) (x : Tx) :
    x ∈ txsOf bs ↔ ∃ b ∈ bs, x ∈ b.transactions := by
  simp [txsOf, List.mem_flatMap]

/-! ## Branches -/

theorem IsBranch.tail {blocks : BlockStore} {A b : Block} {rest : List Block}
    (h : IsBranch blocks A (b :: rest)) : IsBranch blocks A rest :=
  h.2.2

theorem IsBranch.suffix {blocks : BlockStore} {A : Block} (pre : List Block) {suf : List Block}
    (h : IsBranch blocks A (pre ++ suf)) : IsBranch blocks A suf := by
  induction pre with
  | nil => simpa using h
  | cons b rest ih => exact ih (IsBranch.tail h)

/-- The tip of a branch of `n` blocks lies `n` above the block it stands on. -/
theorem IsBranch.chainLength_head {blocks : BlockStore} {A : Block} {bs : List Block}
    (h : IsBranch blocks A bs) : (bs.headD A).chainLength = A.chainLength + bs.length := by
  induction bs with
  | nil => simp
  | cons b rest ih =>
    have h2 := ih (IsBranch.tail h)
    have h1 := h.2.1
    simp only [List.headD_cons, List.length_cons]
    omega

/-- Every block of a branch lies above the block the branch stands on. -/
theorem IsBranch.chainLength_mem {blocks : BlockStore} {A : Block} {bs : List Block}
    (h : IsBranch blocks A bs) {b : Block} (hb : b ∈ bs) : A.chainLength < b.chainLength := by
  induction bs with
  | nil => cases hb
  | cons c rest ih =>
    rcases List.mem_cons.mp hb with rfl | hr
    · have := IsBranch.chainLength_head h
      simp only [List.headD_cons, List.length_cons] at this
      omega
    · exact ih (IsBranch.tail h) hr

/-! ## The two loops of syncTransactions on branches -/

theorem setAddAll_append (s xs ys : List Tx) :
    setAddAll s (xs ++ ys) = setAddAll (setAddAll s xs) ys := by
  simp [setAddAll, List.foldl_append]

theorem txsOf_cons (b : Block) (bs : List Block) :
    txsOf (b :: bs) = b.transactions ++ txsOf bs := by
  simp [txsOf]

theorem txsOf_append (xs ys : List Block) : txsOf (xs ++ ys) = txsOf xs ++ txsOf ys := by
  simp [txsOf]

/-- The first loop walks the candidate branch down to the height of `cb`: it
passes the blocks `pre` above that height, collecting their transactions with
one lookup each, and ends on the tip of the rest. -/
theorem rollBackLoop_branch (blocks : BlockStore) (cb A : Block) (suf : List Block)
    (hcb : cb.chainLength = A.chainLength + suf.length) :
    ∀ (pre : List Block) (fuel : Nat) (acc : List Tx) (n : Nat),
      IsBranch blocks A (pre ++ suf) → pre.length < fuel →
      rollBackLoop blocks cb fuel (some ((pre ++ suf).headD A)) acc n
        = some (.ok (suf.headD A, setAddAll acc (txsOf pre), n + pre.length)) := by
  intro pre
  induction pre with
  | nil =>
    intro fuel acc n hbr hfuel
    obtain ⟨f, rfl⟩ : ∃ f, fuel = f + 1 := ⟨fuel - 1, by simp at hfuel; omega⟩
    have hlen := IsBranch.chainLength_head hbr
    simp only [List.nil_append] at hlen ⊢
    have hnot : ¬ (suf.headD A).chainLength > cb.chainLength := by omega
    rw [rollBackLoop, if_neg hnot]
    simp [txsOf, setAddAll]
  | cons b rest ih =>
    intro fuel acc n hbr hfuel
    obtain ⟨f, rfl⟩ : ∃ f, fuel = f + 1 := ⟨fuel - 1, by simp at hfuel; omega⟩
    have hlen := IsBranch.chainLength_head hbr
    simp only [List.cons_append, List.headD_cons, List.length_cons, List.length_append] at hlen
    have hgt : b.chainLength > cb.chainLength := by omega
    have hget : blocks.get b.prevBlockHash = some ((rest ++ suf).headD A) := hbr.1
    have hrec := ih f (setAddAll acc b.transactions) (n + 1) (IsBranch.tail hbr)
      (by simp at hfuel; omega)
    simp only [List.cons_append, List.headD_cons, rollBackLoop, hgt, if_true, hget, hrec,
      txsOf_cons, setAddAll_append, List.length_cons]
    have : n + 1 + rest.length = n + (rest.length + 1) := by omega
    rw [this]

/-- The second loop walks two branches of equal length that stand on the same
block and whose blocks of equal height have different ids: it collects the
transactions of both, with one lookup per block on each side, and stops at
the block they stand on. -/
theorem stepBackLoop_branch (blocks : BlockStore) (A : Block) :
    ∀ (cs ns : List Block) (fuel : Nat) (cacc nacc : List Tx) (k : Nat),
      IsBranch blocks A cs → IsBranch blocks A ns → cs.length = ns.length →
      (∀ c ∈ cs, ∀ n ∈ ns, c.chainLength = n.chainLength → c.id ≠ n.id) →
      cs.length < fuel →
      stepBackLoop blocks fuel (some (cs.headD A)) (some (ns.headD A)) cacc nacc k
        = some (.ok (setAddAll cacc (txsOf cs), setAddAll nacc (txsOf ns), k + cs.length)) := by
  intro cs
  induction cs with
  | nil =>
    intro ns fuel cacc nacc k _ _ hlen _ hfuel
    obtain ⟨f, rfl⟩ : ∃ f, fuel = f + 1 := ⟨fuel - 1, by simp at hfuel; omega⟩
    have hns : ns = [] := by
      cases ns with
      | nil => rfl
      | cons _ _ => simp at hlen
    subst hns
    simp [stepBackLoop, txsOf, setAddAll]
  | cons c rest ih =>
    intro ns fuel cacc nacc k hc hn hlen hid hfuel
    obtain ⟨f, rfl⟩ : ∃ f, fuel = f + 1 := ⟨fuel - 1, by simp at hfuel; omega⟩
    cases ns with
    | nil => simp at hlen
    | cons n nrest =>
      have hlen1 : rest.length = nrest.length := by simpa using hlen
      have hcl := IsBranch.chainLength_head hc
      have hnl := IsBranch.chainLength_head hn
      simp only [List.headD_cons, List.length_cons] at hcl hnl
      have hne : c.id ≠ n.id :=
        hid c (List.mem_cons_self _ _) n (List.mem_cons_self _ _) (by omega)
      have hgc : blocks.get c.prevBlockHash = some (rest.headD A) := hc.1
      have hgn : blocks.get n.prevBlockHash = some (nrest.headD A) := hn.1
      have hrec := ih nrest f (setAddAll cacc c.transactions) (setAddAll nacc n.transactions)
        (k + 1) (IsBranch.tail hc) (IsBranch.tail hn) hlen1
        (fun c1 h1 n1 h2 => hid c1 (List.mem_cons_of_mem _ h1) n1 (List.mem_cons_of_mem _ h2))
        (by simp at hfuel; omega)
      simp only [List.headD_cons, stepBackLoop, hne, ne_eq, not_false_eq_true, if_true, hgc,
        hgn, hrec, txsOf_cons, setAddAll_append, List.length_cons]
      have : k + 1 + rest.length = k + (rest.length + 1) := by omega
      rw [this]

/-- The walk of `syncTransactions` over two branches standing on the same
block `A`, the candidate branch `nbs` at least as long as the local branch
`cbs`: the result, and one lookup per passed block on each side. -/
theorem syncWalk_branches (blocks : BlockStore) (A : Block) (cbs nbs : List Block) (fuel : Nat)
    (hc : IsBranch blocks A cbs) (hn : IsBranch blocks A nbs)
    (hlen : cbs.length ≤ nbs.length)
    (hid : ∀ c ∈ cbs, ∀ n ∈ nbs, c.chainLength = n.chainLength → c.id ≠ n.id)
    (hfuel : nbs.length < fuel) :
    syncWalk blocks (cbs.headD A) (nbs.headD A) fuel
      = some (.ok { residual := setDeleteAll (setAddAll [] (txsOf cbs)) (setAddAll [] (txsOf nbs))
                    cbLookups := cbs.length
                    nbLookups := nbs.length }) := by
  have hsplit : nbs = nbs.take (nbs.length - cbs.length) ++ nbs.drop (nbs.length - cbs.length) :=
    (List.take_append_drop _ _).symm
  generalize hpre : nbs.take (nbs.length - cbs.length) = pre at hsplit
  generalize hsuf : nbs.drop (nbs.length - cbs.length) = suf at hsplit
  have hsl : suf.length = cbs.length := by
    rw [← hsuf, List.length_drop]; omega
  have hpl : pre.length + cbs.length = nbs.length := by
    rw [← hpre, List.length_take]; omega
  subst hsplit
  have hcb : (cbs.headD A).chainLength = A.chainLength + suf.length := by
    rw [IsBranch.chainLength_head hc, hsl]
  have h1 := rollBackLoop_branch blocks (cbs.headD A) A suf hcb pre fuel [] 0 hn (by omega)
  have h2 := stepBackLoop_branch blocks A cbs suf fuel [] (setAddAll [] (txsOf pre)) 0 hc
    (IsBranch.suffix pre hn) hsl.symm
    (fun c h3 n h4 => hid c h3 n (List.mem_append_right _ h4)) (by omega)
  simp only [syncWalk, h1, h2, txsOf_append, setAddAll_append, Nat.zero_add, hpl]

/-! ## Claims on the address store -/

/-- C1: the proof `seal` writes does not carry the address the store gives for
its content. For two different sequences of draws the sealed contents differ,
`memAddress` is the constant `"0x8564BF3E"` both times, and
`findAddress(proof.string)` returns `undefined`. -/
theorem seal_memAddress_is_constant :
    (∃ m1 p, sampleMiner.seal sampleEnv 8 = some (.ok m1) ∧ m1.currentProof = some p ∧
      p.string = .str "rYGxfM3lSA" ∧ p.memAddress = .str "0x8564BF3E" ∧
      m1.memory.findAddress p.string = .ok (.undefined, m1.memory)) ∧
    (∃ m1 p, sampleMiner.seal sampleEnvB 8 = some (.ok m1) ∧ m1.currentProof = some p ∧
      p.string = .str "rASl3MfxGYrASl3MfxGY" ∧ p.memAddress = .str "0x8564BF3E" ∧
      m1.memory.findAddress p.string = .ok (.undefined, m1.memory)) := by
  refine ⟨⟨_, _, rfl, rfl, ?_, ?_, ?_⟩, ⟨_, _, rfl, rfl, ?_, ?_, ?_⟩⟩ <;> decide

/-- C2: on a fresh store, where `"abc"` is not registered, `findAddress("abc")`
registers nothing, and the first and the second `removeAddress("abc")` both
return `true`. -/
theorem removeAddress_true_when_absent :
    FakeMemory.new.findAddress (.str "abc") = .ok (.undefined, FakeMemory.new) ∧
    ¬ FakeMemory.new.registered (.str "abc") ∧
    FakeMemory.new.removeAddress (.str "abc") = (true, FakeMemory.new) ∧
    (FakeMemory.new.removeAddress (.str "abc")).2.removeAddress (.str "abc")
      = (true, FakeMemory.new) := by
  decide

/-- The counterexample of C3: on the store whose `memory` is `["x", "y"]`,
`removeAddress("x")` returns `false` and leaves `"x"` registered, where the
store without the entry of `"x"` is `["y"]`; and `removeAddress("z")`, for the
unregistered `"z"`, removes the entry `"y"`. -/
theorem removeAddress_removes_other_entry :
    FakeMemory.removeAddress ⟨[.str "x", .str "y"]⟩ (.str "x")
      = (false, ⟨[.str "x", .str "y"]⟩) ∧
    (FakeMemory.removeAddress ⟨[.str "x", .str "y"]⟩ (.str "x")).2.registered (.str "x") ∧
    FakeMemory.withoutEntry ⟨[.str "x", .str "y"]⟩ (.str "x") = ⟨[.str "y"]⟩ ∧
    (FakeMemory.removeAddress ⟨[.str "x", .str "y"]⟩ (.str "x")).2
      ≠ FakeMemory.withoutEntry ⟨[.str "x", .str "y"]⟩ (.str "x") ∧
    ¬ FakeMemory.registered ⟨[.str "x", .str "y"]⟩ (.str "z") ∧
    FakeMemory.removeAddress ⟨[.str "x", .str "y"]⟩ (.str "z") = (true, ⟨[.str "x"]⟩) := by
  decide

/-- C3, amended: in every store state reached from a fresh store by
`findAddress` and `removeAddress` calls, the store after `removeAddress(c)` is
the store before the call with the entry of `c` removed, `c` is not
registered afterwards, and when `c` is not registered the store is left as it
was. -/
theorem removeAddress_effect_reachable (calls : List StoreCall) (c : Value) :
    ((FakeMemory.new.run calls).removeAddress c).2 = (FakeMemory.new.run calls).withoutEntry c ∧
    ¬ ((FakeMemory.new.run calls).removeAddress c).2.registered c ∧
    (¬ (FakeMemory.new.run calls).registered c →
      ((FakeMemory.new.run calls).removeAddress c).2 = FakeMemory.new.run calls) := by
  have hnil := run_memory_nil calls FakeMemory.new rfl
  have hn : ¬ (FakeMemory.new.run calls).registered c := by
    simp [FakeMemory.registered, hnil, indexOf_nil]
  have hrem := removeAddress_not_registered _ c hn
  have hsame : ((FakeMemory.new.run calls).removeAddress c).2 = FakeMemory.new.run calls := by
    rw [hrem]
    cases hfm : FakeMemory.new.run calls with
    | mk mem =>
      rw [hfm] at hnil
      simp only [] at hnil
      subst hnil
      rfl
  refine ⟨?_, ?_, fun _ => hsame⟩
  · rw [hsame]
    cases hfm : FakeMemory.new.run calls with
    | mk mem =>
      rw [hfm] at hnil
      simp only [] at hnil
      subst hnil
      rfl
  · rw [hsame]
    exact hn

/-- C4: on a fresh store `findAddress` returns `-1` for the `String` object
`"abc"` and `undefined` for the primitive `"abc"`; the store still has no
entry for either, and nothing is stored under the returned value. -/
theorem findAddress_registers_nothing :
    FakeMemory.new.findAddress (.strObj 0 "abc") = .ok (.num (-1), FakeMemory.new) ∧
    ¬ FakeMemory.new.registered (.strObj 0 "abc") ∧
    FakeMemory.new.findAddress (.str "abc") = .ok (.undefined, FakeMemory.new) ∧
    ¬ FakeMemory.new.registered (.str "abc") ∧
    FakeMemory.new.memory = [] := by
  decide

/-- C5: in every store state reached from a fresh store by `findAddress` and
`removeAddress` calls, two distinct contents that are both registered get
different addresses from `findAddress`. No content is registered in any such
state, so no two registered contents exist that could share an address. -/
theorem address_uniqueness_reachable (calls : List StoreCall) (c1 c2 : Value) :
    ¬ (FakeMemory.new.run calls).registered c1 ∧
    ¬ (FakeMemory.new.run calls).registered c2 ∧
    ((FakeMemory.new.run calls).registered c1 → (FakeMemory.new.run calls).registered c2 →
      c1 ≠ c2 → ∀ a1 a2 fm1 fm2,
        (FakeMemory.new.run calls).findAddress c1 = .ok (a1, fm1) →
        (FakeMemory.new.run calls).findAddress c2 = .ok (a2, fm2) → a1 ≠ a2) := by
  have hnil := run_memory_nil calls FakeMemory.new rfl
  have hn : ∀ c, ¬ (FakeMemory.new.run calls).registered c := by
    intro c
    simp [FakeMemory.registered, hnil, indexOf_nil]
  exact ⟨hn c1, hn c2, fun h1 => absurd h1 (hn c1)⟩

/-- The counterexample of C6: in the store whose `memory` holds the `String`
object `"abc"`, `findAddress` of that object throws a `ReferenceError`, so two
successive calls return nothing. -/
theorem findAddress_throws_when_stored :
    FakeMemory.registered ⟨[.strObj 0 "abc"]⟩ (.strObj 0 "abc") ∧
    FakeMemory.findAddress ⟨[.strObj 0 "abc"]⟩ (.strObj 0 "abc")
      = .error (.referenceError "addressGenerator") ∧
    FakeMemory.findAddressTwice ⟨[.strObj 0 "abc"]⟩ (.strObj 0 "abc")
      = .error (.referenceError "addressGenerator") := by
  decide

/-- C6, amended: in every store state in which `findAddress(c)` returns, a
second call with no `removeAddress(c)` in between returns the same value and
does not change the store; and `findAddress(c)` does return in every state
reached from a fresh store by `findAddress` and `removeAddress` calls. -/
theorem findAddress_second_call_same (fm fm1 : FakeMemory) (c a : Value)
    (h : fm.findAddress c = .ok (a, fm1)) :
    fm1.findAddress c = .ok (a, fm1) ∧
    fm.findAddressTwice c = .ok (a, a, fm1, fm1) ∧
    (∀ (calls : List StoreCall) (d : Value),
      ∃ b fm2, (FakeMemory.new.run calls).findAddress d = .ok (b, fm2)) := by
  have h1 := findAddress_store_eq h
  subst h1
  refine ⟨h, by simp [FakeMemory.findAddressTwice, h], ?_⟩
  intro calls d
  obtain ⟨b, hb⟩ := findAddress_of_memory_nil (FakeMemory.new.run calls) d
    (run_memory_nil calls FakeMemory.new rfl)
  exact ⟨b, _, hb⟩

/-- The scenario of C6, amended: two calls for the `String` object `"abc"` on
a fresh store. -/
theorem findAddress_second_call_same_witness :
    FakeMemory.new.findAddress (.strObj 0 "abc") = .ok (.num (-1), FakeMemory.new) ∧
    (FakeMemory.new.findAddress (.strObj 0 "abc") = .ok (.num (-1), FakeMemory.new) ∧
    FakeMemory.new.findAddressTwice (.strObj 0 "abc")
      = .ok (.num (-1), .num (-1), FakeMemory.new, FakeMemory.new) ∧
    (∀ (calls : List StoreCall) (d : Value),
      ∃ b fm2, (FakeMemory.new.run calls).findAddress d = .ok (b, fm2))) :=
  ⟨rfl, findAddress_second_call_same FakeMemory.new FakeMemory.new (.strObj 0 "abc") (.num (-1))
    rfl⟩

/-- C7: `findAddress` rejects the primitive string `"abc"` and the content
`seal` produced, returning `undefined`, exactly as it rejects the number `42`;
only a `String` object gets past the test. -/
theorem findAddress_rejects_primitive_string :
    FakeMemory.new.findAddress (.str "abc") = .ok (.undefined, FakeMemory.new) ∧
    FakeMemory.new.findAddress (.str "rYGxfM3lSA") = .ok (.undefined, FakeMemory.new) ∧
    FakeMemory.new.findAddress (.num 42) = .ok (.undefined, FakeMemory.new) ∧
    FakeMemory.new.findAddress (.strObj 0 "abc") = .ok (.num (-1), FakeMemory.new) := by
  decide

/-! ## Claims on receiving blocks -/

/-- C8: let the local current block `cb` and the candidate `nb` be the tips of
two branches `cbs` and `nbs` of the block store that stand on the same block
`A`, with every predecessor down to `A` resolved and one step of chain length
per block, blocks of equal height on the two branches having different ids,
and `nb.chainLength >= cb.chainLength`. Then `syncTransactions(nb)` returns,
given fuel for the walk, a set that holds exactly the transactions of the
local blocks after `A` that are in no candidate block after `A`. -/
theorem syncTransactions_fork (m : Miner) (A cb nb : Block) (cbs nbs : List Block) (fuel : Nat)
    (hcb : cbs.headD A = cb) (hnb : nbs.headD A = nb)
    (hcur : m.currentBlock = some cb)
    (hc : IsBranch m.blocks A cbs) (hn : IsBranch m.blocks A nbs)
    (hlen : nb.chainLength ≥ cb.chainLength)
    (hid : ∀ c ∈ cbs, ∀ n ∈ nbs, c.chainLength = n.chainLength → c.id ≠ n.id)
    (hfuel : nbs.length < fuel) :
    ∃ r, m.syncTransactions fuel nb = some (.ok r) ∧ r.Nodup ∧
      ∀ tx, tx ∈ r ↔ tx ∈ txsOf cbs ∧ tx ∉ txsOf nbs := by
  subst hcb hnb
  have hl : cbs.length ≤ nbs.length := by
    have h1 := IsBranch.chainLength_head hc
    have h2 := IsBranch.chainLength_head hn
    omega
  have hw := syncWalk_branches m.blocks A cbs nbs fuel hc hn hl hid hfuel
  refine ⟨setDeleteAll (setAddAll [] (txsOf cbs)) (setAddAll [] (txsOf nbs)), ?_, ?_, ?_⟩
  · simp only [Miner.syncTransactions, hcur, hw]
  · exact nodup_setDeleteAll _ _ (nodup_setAddAll _ _ List.nodup_nil)
  · intro tx
    simp [mem_setDeleteAll, mem_setAddAll]

/-- The scenario of C8: the local branch holds transactions 1 and 2 above the
ancestor at chain length 3, the candidate at chain length 6 holds transaction
3, and the residual set is made of 1 and 2. -/
theorem syncTransactions_fork_witness :
    forkMiner.syncTransactions 4 cand6 = some (.ok [2, 1]) ∧
    ∃ r, forkMiner.syncTransactions 4 cand6 = some (.ok r) ∧ r.Nodup ∧
      ∀ tx, tx ∈ r ↔ tx ∈ txsOf [local5, local4] ∧ tx ∉ txsOf [cand6, cand5, cand4] :=
  ⟨by decide,
    syncTransactions_fork forkMiner ancestorA local5 cand6 [local5, local4] [cand6, cand5, cand4] 4
      rfl rfl rfl (by decide) (by decide) (by decide) (by decide) (by decide)⟩

/-- The cut-over never gives back the state it started from: `startNewSearch`
has called `Math.random()` once more. -/
theorem cutOver_ne_unchanged (env : Env) (m : Miner) (fuel : Nat) (b : Block) :
    m.cutOver env fuel b ≠ some (.ok m) := by
  unfold Miner.cutOver
  intro h
  split at h
  · cases h
  · cases h
  · rename_i txSet _
    have h1 : (m.startNewSearch env txSet).randomCalls = m.randomCalls := by
      injection h with h2
      injection h2 with h3
      rw [h3]
    simp [Miner.startNewSearch] at h1

/-- C9: when `super.receiveBlock` returns a block `b` and the current block is
`cb`, `receiveBlock` cuts over to `b` (runs `syncTransactions(b)` and
`startNewSearch` with its result) if and only if
`b.chainLength >= cb.chainLength`, and leaves the state as it is if and only
if `b.chainLength < cb.chainLength`. -/
theorem receiveBlock_adopts_iff (env : Env) (m m1 : Miner) (fuel : Nat) (s b cb : Block)
    (hsuper : env.clientReceiveBlock m s = (some b, m1))
    (hcur : m1.currentBlock = some cb) :
    (m.receiveBlock env fuel s = m1.cutOver env fuel b ↔ b.chainLength ≥ cb.chainLength) ∧
    (m.receiveBlock env fuel s = some (.ok m1) ↔ b.chainLength < cb.chainLength) := by
  have hne := cutOver_ne_unchanged env m1 fuel b
  by_cases h : b.chainLength ≥ cb.chainLength
  · have hr : m.receiveBlock env fuel s = m1.cutOver env fuel b := by
      simp [Miner.receiveBlock, hsuper, hcur, h]
    refine ⟨⟨fun _ => h, fun _ => hr⟩, ⟨fun h1 => ?_, fun h1 => ?_⟩⟩
    · exact absurd (hr.symm.trans h1) hne
    · omega
  · have hr : m.receiveBlock env fuel s = some (.ok m1) := by
      simp [Miner.receiveBlock, hsuper, hcur, h]
    refine ⟨⟨fun h1 => ?_, fun h1 => absurd h1 h⟩, ⟨fun _ => by omega, fun _ => hr⟩⟩
    exact absurd (h1.symm.trans hr) hne

/-- The scenario of C9: a candidate at chain length 5 against a current block
at chain length 5 is adopted, and the new round is seeded with the residual
transactions 2 and 1 on top of the candidate. -/
theorem receiveBlock_adopts_iff_witness :
    cand5.chainLength = 5 ∧ local5.chainLength = 5 ∧
    forkMiner.receiveBlock sampleEnv 4 cand5
      = (sampleEnv.clientReceiveBlock forkMiner cand5).2.cutOver sampleEnv 4 cand5 ∧
    (∃ m2 nxt, forkMiner.receiveBlock sampleEnv 4 cand5 = some (.ok m2) ∧
      m2.currentBlock = some nxt ∧ nxt.prevBlockHash = cand5.id ∧ nxt.chainLength = 6 ∧
      nxt.transactions = [2, 1]) :=
  ⟨rfl, rfl,
    (receiveBlock_adopts_iff sampleEnv forkMiner (sampleEnv.clientReceiveBlock forkMiner cand5).2
      4 cand5 cand5 local5 rfl rfl).1.mpr (by decide),
    ⟨_, _, rfl, rfl, rfl, rfl, rfl⟩⟩

/-- C10: an unresolved predecessor on the candidate side makes
`syncTransactions` throw a `TypeError`, in the first loop (candidate above the
current block) and in the second (candidate at the height of the current
block); an unresolved predecessor on the local side ends the walk and a set
is returned. -/
theorem syncTransactions_throws_on_missing_candidate_history :
    forkStore.get orphan7.prevBlockHash = none ∧
    forkMiner.syncTransactions 8 orphan7 = some (.error (.typeError "chainLength")) ∧
    forkMiner.syncTransactions 8 orphan5 = some (.error (.typeError "id")) ∧
    forkStore.get 998 = none ∧
    rootlessMiner.syncTransactions 8 cand5 = some (.ok [2]) := by
  decide

/-! ## The store in its reachable states -/

/-- C17: in every state reached from a fresh store by `findAddress` and
`removeAddress` calls with arbitrary arguments, `memory` has length 0 and
`indexOf` finds nothing; `findAddress` then returns `undefined` or `-1` and
leaves the store alone, so it neither reaches its address-creating branch nor
throws. -/
theorem store_memory_always_empty (calls : List StoreCall) (c : Value) :
    (FakeMemory.new.run calls).memory.length = 0 ∧
    indexOf (FakeMemory.new.run calls).memory c = -1 ∧
    ((FakeMemory.new.run calls).findAddress c = .ok (.undefined, FakeMemory.new.run calls) ∨
      (FakeMemory.new.run calls).findAddress c = .ok (.num (-1), FakeMemory.new.run calls)) := by
  have hnil := run_memory_nil calls FakeMemory.new rfl
  refine ⟨by simp [hnil], by simp [hnil, indexOf_nil], ?_⟩
  unfold FakeMemory.findAddress
  split
  · exact Or.inl rfl
  · right
    simp [hnil, indexOf_nil]

/-! ## The walk of syncTransactions: lookup counts and safety -/

/-- The loop `rollBackLoop` is `rollBackTrace` without the count of a run that
does not return. -/
theorem rollBackLoop_eq_trace (blocks : BlockStore) (cb : Block) :
    ∀ (fuel : Nat) (nb : Option Block) (acc : List Tx) (n : Nat),
      rollBackLoop blocks cb fuel nb acc n =
        match rollBackTrace blocks cb fuel nb acc n with
        | (none, _) => none
        | (some (.error e), _) => some (.error e)
        | (some (.ok (b, txs)), k) => some (.ok (b, txs, k)) := by
  intro fuel
  induction fuel with
  | zero => intro nb acc n; simp [rollBackLoop, rollBackTrace]
  | succ f ih =>
    intro nb acc n
    cases nb with
    | none => simp [rollBackLoop, rollBackTrace]
    | some b =>
      by_cases h : b.chainLength > cb.chainLength
      · simp only [rollBackLoop, rollBackTrace, h, if_true]
        exact ih _ _ _
      · simp [rollBackLoop, rollBackTrace, h]

/-- The loop `stepBackLoop` is `stepBackTrace` without the count of a run that
does not return. -/
theorem stepBackLoop_eq_trace (blocks : BlockStore) :
    ∀ (fuel : Nat) (cb nb : Option Block) (cacc nacc : List Tx) (n : Nat),
      stepBackLoop blocks fuel cb nb cacc nacc n =
        match stepBackTrace blocks fuel cb nb cacc nacc n with
        | (none, _) => none
        | (some (.error e), _) => some (.error e)
        | (some (.ok (ca, na)), k) => some (.ok (ca, na, k)) := by
  intro fuel
  induction fuel with
  | zero => intro cb nb cacc nacc n; simp [stepBackLoop, stepBackTrace]
  | succ f ih =>
    intro cb nb cacc nacc n
    cases cb with
    | none => simp [stepBackLoop, stepBackTrace]
    | some c =>
      cases nb with
      | none => simp [stepBackLoop, stepBackTrace]
      | some b =>
        by_cases h : c.id = b.id
        · simp [stepBackLoop, stepBackTrace, h]
        · simp only [stepBackLoop, stepBackTrace, ne_eq, h, not_false_eq_true, if_true]
          exact ih _ _ _ _ _

/-- The run `syncWalk` is `syncTrace` without the counts of a run that does
not return. -/
theorem syncWalk_eq_trace (blocks : BlockStore) (cb nb : Block) (fuel : Nat) :
    syncWalk blocks cb nb fuel =
      match (syncTrace blocks cb nb fuel).outcome with
      | none => none
      | some (.error e) => some (.error e)
      | some (.ok r) =>
        some (.ok { residual := r
                    cbLookups := (syncTrace blocks cb nb fuel).cbLookups
                    nbLookups := (syncTrace blocks cb nb fuel).nbLookups }) := by
  unfold syncWalk syncTrace
  rw [rollBackLoop_eq_trace]
  rcases h1 : rollBackTrace blocks cb fuel (some nb) [] 0 with ⟨o1, n1⟩
  rcases o1 with _ | ⟨e | ⟨nb1, txs1⟩⟩
  · rfl
  · rfl
  · simp only []
    rw [stepBackLoop_eq_trace]
    rcases h2 : stepBackTrace blocks fuel (some cb) (some nb1) [] txs1 0 with ⟨o2, n2⟩
    rcases o2 with _ | ⟨e | ⟨ca, na⟩⟩ <;> rfl

/-- The method `syncTransactions` ends as `syncTrace` says. -/
theorem syncTransactions_eq_trace (m : Miner) (cb nb : Block) (fuel : Nat)
    (hcur : m.currentBlock = some cb) :
    m.syncTransactions fuel nb = (syncTrace m.blocks cb nb fuel).outcome := by
  simp only [Miner.syncTransactions, hcur, syncWalk_eq_trace]
  rcases (syncTrace m.blocks cb nb fuel).outcome with _ | ⟨e | r⟩ <;> rfl

/-- With lookups that lower `chainLength`, the first loop ends after at most
`D` lookups when it starts at most `D` above the current block, and a block it
returns is on the chains and not above the current block. -/
theorem rollBackTrace_bound (blocks : BlockStore) (cb : Block) (chains : List Block)
    (hdec : ∀ b ∈ chains, ∀ p ∈ blocks.get b.prevBlockHash,
      p ∈ chains ∧ p.chainLength < b.chainLength) :
    ∀ (fuel D : Nat) (nb : Option Block) (acc : List Tx) (n : Nat),
      (∀ b ∈ nb, b ∈ chains ∧ b.chainLength ≤ cb.chainLength + D) → D < fuel →
      (rollBackTrace blocks cb fuel nb acc n).1 ≠ none ∧
      (rollBackTrace blocks cb fuel nb acc n).2 ≤ n + D ∧
      ∀ b txs, (rollBackTrace blocks cb fuel nb acc n).1 = some (.ok (b, txs)) →
        b ∈ chains ∧ b.chainLength ≤ cb.chainLength := by
  intro fuel
  induction fuel with
  | zero => intro D nb acc n _ hf; omega
  | succ f ih =>
    intro D nb acc n hnb hf
    cases nb with
    | none => simp [rollBackTrace]
    | some b =>
      obtain ⟨hb, hbl⟩ := hnb b rfl
      by_cases h : b.chainLength > cb.chainLength
      · obtain ⟨D1, rfl⟩ : ∃ D1, D = D1 + 1 := ⟨D - 1, by omega⟩
        have hnext : ∀ p ∈ blocks.get b.prevBlockHash,
            p ∈ chains ∧ p.chainLength ≤ cb.chainLength + D1 := by
          intro p hp
          obtain ⟨h1, h2⟩ := hdec b hb p hp
          exact ⟨h1, by omega⟩
        have hrec := ih D1 (blocks.get b.prevBlockHash) (setAddAll acc b.transactions) (n + 1)
          hnext (by omega)
        simp only [rollBackTrace, h, if_true]
        refine ⟨hrec.1, by have := hrec.2.1; omega, hrec.2.2⟩
      · simp only [rollBackTrace, h, if_false]
        refine ⟨by simp, by omega, ?_⟩
        intro b1 txs heq
        simp only [Option.some.injEq, Except.ok.injEq, Prod.mk.injEq] at heq
        obtain ⟨rfl, _⟩ := heq
        exact ⟨hb, by omega⟩

/-- With lookups that lower `chainLength` and one id for the blocks of
`chainLength` 0, the second loop ends after at most `B` lookups per side when
both sides start at `chainLength` `B` at most. -/
theorem stepBackTrace_bound (blocks : BlockStore) (G : Block) (chains : List Block)
    (hdec : ∀ b ∈ chains, ∀ p ∈ blocks.get b.prevBlockHash,
      p ∈ chains ∧ p.chainLength < b.chainLength)
    (hgen : ∀ b ∈ chains, b.chainLength = 0 → b.id = G.id) :
    ∀ (fuel B : Nat) (cb nb : Option Block) (cacc nacc : List Tx) (k : Nat),
      (∀ c ∈ cb, c ∈ chains ∧ c.chainLength ≤ B) →
      (∀ b ∈ nb, b ∈ chains ∧ b.chainLength ≤ B) → B < fuel →
      (stepBackTrace blocks fuel cb nb cacc nacc k).1 ≠ none ∧
      (stepBackTrace blocks fuel cb nb cacc nacc k).2 ≤ k + B := by
  intro fuel
  induction fuel with
  | zero => intro B cb nb cacc nacc k _ _ hf; omega
  | succ f ih =>
    intro B cb nb cacc nacc k hcb hnb hf
    cases cb with
    | none => simp [stepBackTrace]
    | some c =>
      cases nb with
      | none => simp [stepBackTrace]
      | some b =>
        obtain ⟨hc, hcl⟩ := hcb c rfl
        obtain ⟨hb, hbl⟩ := hnb b rfl
        by_cases h : c.id = b.id
        · simp [stepBackTrace, h]
        · have hB : B ≠ 0 := by
            intro h0
            apply h
            rw [hgen c hc (by omega), hgen b hb (by omega)]
          obtain ⟨B1, rfl⟩ : ∃ B1, B = B1 + 1 := ⟨B - 1, by omega⟩
          have hc1 : ∀ p ∈ blocks.get c.prevBlockHash, p ∈ chains ∧ p.chainLength ≤ B1 := by
            intro p hp
            obtain ⟨h1, h2⟩ := hdec c hc p hp
            exact ⟨h1, by omega⟩
          have hb1 : ∀ p ∈ blocks.get b.prevBlockHash, p ∈ chains ∧ p.chainLength ≤ B1 := by
            intro p hp
            obtain ⟨h1, h2⟩ := hdec b hb p hp
            exact ⟨h1, by omega⟩
          have hrec := ih B1 (blocks.get c.prevBlockHash) (blocks.get b.prevBlockHash)
            (setAddAll cacc c.transactions) (setAddAll nacc b.transactions) (k + 1) hc1 hb1
            (by omega)
          simp only [stepBackTrace, ne_eq, h, not_false_eq_true, if_true]
          exact ⟨hrec.1, by have := hrec.2; omega⟩

/-- The walk ends, and it makes at most `max cb.chainLength nb.chainLength`
lookups on each side. -/
theorem syncTrace_bound (blocks : BlockStore) (cb nb G : Block) (chains : List Block)
    (fuel : Nat) (hcb : cb ∈ chains) (hnb : nb ∈ chains)
    (hdec : ∀ b ∈ chains, ∀ p ∈ blocks.get b.prevBlockHash,
      p ∈ chains ∧ p.chainLength < b.chainLength)
    (hgen : ∀ b ∈ chains, b.chainLength = 0 → b.id = G.id)
    (hfuel : max cb.chainLength nb.chainLength < fuel) :
    (syncTrace blocks cb nb fuel).outcome ≠ none ∧
    (syncTrace blocks cb nb fuel).cbLookups ≤ max cb.chainLength nb.chainLength ∧
    (syncTrace blocks cb nb fuel).nbLookups ≤ max cb.chainLength nb.chainLength := by
  have h1 := rollBackTrace_bound blocks cb chains hdec fuel (nb.chainLength - cb.chainLength)
    (some nb) [] 0
    (by intro b hb; cases hb; exact ⟨hnb, by omega⟩) (by omega)
  unfold syncTrace
  rcases hr : rollBackTrace blocks cb fuel (some nb) [] 0 with ⟨o1, n1⟩
  rw [hr] at h1
  rcases o1 with _ | ⟨e | ⟨nb1, txs1⟩⟩
  · exact absurd rfl h1.1
  · simp only []
    have := h1.2.1
    exact ⟨by simp, by omega, by omega⟩
  · simp only []
    obtain ⟨hnb1, hnb1l⟩ := h1.2.2 nb1 txs1 rfl
    have h2 := stepBackTrace_bound blocks G chains hdec hgen fuel cb.chainLength (some cb)
      (some nb1) [] txs1 0
      (by intro c hc; cases hc; exact ⟨hcb, le_refl _⟩)
      (by intro b hb; cases hb; exact ⟨hnb1, hnb1l⟩) (by omega)
    rcases hs : stepBackTrace blocks fuel (some cb) (some nb1) [] txs1 0 with ⟨o2, n2⟩
    rw [hs] at h2
    have h3 := h1.2.1
    have h4 := h2.2
    rcases o2 with _ | ⟨e | ⟨ca, na⟩⟩
    · exact absurd rfl h2.1
    · simp only []
      exact ⟨by simp, by omega, by omega⟩
    · simp only []
      exact ⟨by simp, by omega, by omega⟩

/-- With every block above `chainLength` 0 resolving to a block exactly one
below, the first loop walks a candidate that is `D` above the current block
down to its height with `D` lookups and returns. -/
theorem rollBackLoop_safe (blocks : BlockStore) (cb : Block) (chains : List Block)
    (hres : ∀ b ∈ chains, 0 < b.chainLength →
      ∃ p ∈ blocks.get b.prevBlockHash, p ∈ chains ∧ p.chainLength + 1 = b.chainLength) :
    ∀ (fuel D : Nat) (nb : Block) (acc : List Tx) (n : Nat),
      nb ∈ chains → nb.chainLength = cb.chainLength + D → D < fuel →
      ∃ nb1 acc1, rollBackLoop blocks cb fuel (some nb) acc n = some (.ok (nb1, acc1, n + D)) ∧
        nb1 ∈ chains ∧ nb1.chainLength = cb.chainLength := by
  intro fuel
  induction fuel with
  | zero => intro D nb acc n _ _ hf; omega
  | succ f ih =>
    intro D nb acc n hnb hl hf
    by_cases h : nb.chainLength > cb.chainLength
    · obtain ⟨D1, rfl⟩ : ∃ D1, D = D1 + 1 := ⟨D - 1, by omega⟩
      obtain ⟨p, hp, hpc, hpl⟩ := hres nb hnb (by omega)
      have hget : blocks.get nb.prevBlockHash = some p := hp
      obtain ⟨nb1, acc1, hrun, h1, h2⟩ :=
        ih D1 p (setAddAll acc nb.transactions) (n + 1) hpc (by omega) (by omega)
      refine ⟨nb1, acc1, ?_, h1, h2⟩
      simp only [rollBackLoop, h, if_true, hget, hrun]
      have : n + 1 + D1 = n + (D1 + 1) := by omega
      rw [this]
    · have hD : D = 0 := by omega
      subst hD
      exact ⟨nb, acc, by simp [rollBackLoop, h], hnb, by omega⟩

/-- With every block above `chainLength` 0 resolving to a block exactly one
below and one id for the blocks of `chainLength` 0, the second loop, started
on two blocks of equal `chainLength`, never meets an unresolved block and
returns. -/
theorem stepBackLoop_safe (blocks : BlockStore) (G : Block) (chains : List Block)
    (hres : ∀ b ∈ chains, 0 < b.chainLength →
      ∃ p ∈ blocks.get b.prevBlockHash, p ∈ chains ∧ p.chainLength + 1 = b.chainLength)
    (hgen : ∀ b ∈ chains, b.chainLength = 0 → b.id = G.id) :
    ∀ (fuel B : Nat) (c b : Block) (cacc nacc : List Tx) (k : Nat),
      c ∈ chains → b ∈ chains → c.chainLength = B → b.chainLength = B → B < fuel →
      ∃ ca na k1, stepBackLoop blocks fuel (some c) (some b) cacc nacc k
        = some (.ok (ca, na, k1)) := by
  intro fuel
  induction fuel with
  | zero => intro B c b cacc nacc k _ _ _ _ hf; omega
  | succ f ih =>
    intro B c b cacc nacc k hc hb hcl hbl hf
    by_cases h : c.id = b.id
    · exact ⟨cacc, nacc, k, by simp [stepBackLoop, h]⟩
    · have hB : B ≠ 0 := by
        intro h0
        apply h
        rw [hgen c hc (by omega), hgen b hb (by omega)]
      obtain ⟨B1, rfl⟩ : ∃ B1, B = B1 + 1 := ⟨B - 1, by omega⟩
      obtain ⟨pc, hpc, hpcc, hpcl⟩ := hres c hc (by omega)
      obtain ⟨pb, hpb, hpbc, hpbl⟩ := hres b hb (by omega)
      have hgc : blocks.get c.prevBlockHash = some pc := hpc
      have hgb : blocks.get b.prevBlockHash = some pb := hpb
      obtain ⟨ca, na, k1, hrun⟩ := ih B1 pc pb (setAddAll cacc c.transactions)
        (setAddAll nacc b.transactions) (k + 1) hpcc hpbc (by omega) (by omega) (by omega)
      exact ⟨ca, na, k1, by
        simp only [stepBackLoop, ne_eq, h, not_false_eq_true, if_true, hgc, hgb, hrun]⟩

/-! ## Claims on the walk of syncTransactions -/

/-- C11: when every resolved predecessor lookup on the two chains gives a
block of strictly smaller `chainLength` and the blocks of `chainLength` 0 on
them are one shared genesis block, `syncTransactions(nb)` ends (it returns a
set or throws; the fuel does not run out) and has made at most
`max(cb.chainLength, nb.chainLength)` lookups on the local side and at most
that many on the candidate side. -/
theorem syncTransactions_terminates (m : Miner) (cb nb G : Block) (chains : List Block)
    (fuel : Nat) (hcur : m.currentBlock = some cb) (hcb : cb ∈ chains) (hnb : nb ∈ chains)
    (hdec : ∀ b ∈ chains, ∀ p ∈ m.blocks.get b.prevBlockHash,
      p ∈ chains ∧ p.chainLength < b.chainLength)
    (hgen : ∀ b ∈ chains, b.chainLength = 0 → b.id = G.id)
    (hfuel : max cb.chainLength nb.chainLength < fuel) :
    (∃ r, m.syncTransactions fuel nb = some r) ∧
    m.syncTransactions fuel nb = (syncTrace m.blocks cb nb fuel).outcome ∧
    (syncTrace m.blocks cb nb fuel).cbLookups ≤ max cb.chainLength nb.chainLength ∧
    (syncTrace m.blocks cb nb fuel).nbLookups ≤ max cb.chainLength nb.chainLength := by
  have hb := syncTrace_bound m.blocks cb nb G chains fuel hcb hnb hdec hgen hfuel
  have he := syncTransactions_eq_trace m cb nb fuel hcur
  refine ⟨?_, he, hb.2.1, hb.2.2⟩
  rw [he]
  exact Option.ne_none_iff_exists'.mp hb.1

/-- The scenario of C11: in the fork scenario the walk from the current block
at chain length 5 and the candidate at chain length 6 returns after 2 lookups
on the local side and 3 on the candidate side. -/
theorem syncTransactions_terminates_witness :
    syncTrace forkStore local5 cand6 7 = { outcome := some (.ok [2, 1]), cbLookups := 2,
                                           nbLookups := 3 } ∧
    (∃ r, forkMiner.syncTransactions 7 cand6 = some r) ∧
    forkMiner.syncTransactions 7 cand6 = (syncTrace forkMiner.blocks local5 cand6 7).outcome ∧
    (syncTrace forkMiner.blocks local5 cand6 7).cbLookups
      ≤ max local5.chainLength cand6.chainLength ∧
    (syncTrace forkMiner.blocks local5 cand6 7).nbLookups
      ≤ max local5.chainLength cand6.chainLength :=
  ⟨by decide,
    syncTransactions_terminates forkMiner local5 cand6 genesisBlock forkChains 7 rfl
      (by decide) (by decide) (by decide) (by decide) (by decide)⟩

/-- C18: when the block `nb` has the `chainLength` and the `id` of the current
block `cb`, `syncTransactions(nb)` makes no predecessor lookup and returns the
empty set, whatever transactions `cb` holds. -/
theorem syncTransactions_self (m : Miner) (cb nb : Block) (fuel : Nat)
    (hcur : m.currentBlock = some cb) (hlen : nb.chainLength = cb.chainLength)
    (hid : nb.id = cb.id) (hfuel : 0 < fuel) :
    m.syncTransactions fuel nb = some (.ok []) ∧
    syncTrace m.blocks cb nb fuel = { outcome := some (.ok []), cbLookups := 0,
                                      nbLookups := 0 } := by
  obtain ⟨f, rfl⟩ : ∃ f, fuel = f + 1 := ⟨fuel - 1, by omega⟩
  have ht : syncTrace m.blocks cb nb (f + 1) = { outcome := some (.ok []), cbLookups := 0,
                                                 nbLookups := 0 } := by
    simp [syncTrace, rollBackTrace, stepBackTrace, hlen, hid, setDeleteAll]
  exact ⟨by rw [syncTransactions_eq_trace m cb nb (f + 1) hcur, ht], ht⟩

/-- The scenario of C18: the miner of the fork scenario handed its own current
block, which holds transaction 2. -/
theorem syncTransactions_self_witness :
    local5.transactions = [2] ∧
    forkMiner.syncTransactions 1 local5 = some (.ok []) ∧
    syncTrace forkMiner.blocks local5 local5 1 = { outcome := some (.ok []), cbLookups := 0,
                                                   nbLookups := 0 } :=
  ⟨rfl, syncTransactions_self forkMiner local5 local5 1 rfl rfl rfl (by decide)⟩

/-- C19: when every block on the chains other than the genesis block has a
resolved predecessor of `chainLength` exactly one less, the blocks of
`chainLength` 0 are one shared genesis block, and
`nb.chainLength >= cb.chainLength` for the current block `cb`,
`syncTransactions(nb)` reads no field of an unresolved block (it does not
throw) and returns a set. -/
theorem syncTransactions_safe (m : Miner) (cb nb G : Block) (chains : List Block) (fuel : Nat)
    (hcur : m.currentBlock = some cb) (hcb : cb ∈ chains) (hnb : nb ∈ chains)
    (hres : ∀ b ∈ chains, 0 < b.chainLength →
      ∃ p ∈ m.blocks.get b.prevBlockHash, p ∈ chains ∧ p.chainLength + 1 = b.chainLength)
    (hgen : ∀ b ∈ chains, b.chainLength = 0 → b.id = G.id)
    (hlen : nb.chainLength ≥ cb.chainLength) (hfuel : nb.chainLength < fuel) :
    ∃ r, m.syncTransactions fuel nb = some (.ok r) := by
  obtain ⟨nb1, acc1, hroll, hnb1, hnb1l⟩ :=
    rollBackLoop_safe m.blocks cb chains hres fuel (nb.chainLength - cb.chainLength) nb [] 0 hnb
      (by omega) (by omega)
  obtain ⟨ca, na, k1, hstep⟩ :=
    stepBackLoop_safe m.blocks G chains hres hgen fuel cb.chainLength cb nb1 [] acc1 0 hcb hnb1
      rfl hnb1l (by omega)
  exact ⟨setDeleteAll ca na, by
    simp only [Miner.syncTransactions, hcur, syncWalk, hroll, hstep]⟩

/-- The scenario of C19: the fork scenario has complete history, and the walk
for the candidate at chain length 6 returns. -/
theorem syncTransactions_safe_witness :
    ∃ r, forkMiner.syncTransactions 7 cand6 = some (.ok r) :=
  syncTransactions_safe forkMiner local5 cand6 genesisBlock forkChains 7 rfl
    (by decide) (by decide) (by decide) (by decide) (by decide) (by decide)

/-! ## Claims on the mining round -/

/-- The first part of `seal` returns whenever the current block holds a proof
object. -/
theorem sealProof_returns (env : Env) (m : Miner) (cb : Block) (p : Proof)
    (hcur : m.currentBlock = some cb) (hp : cb.proof = some p) :
    ∃ m1, m.sealProof env = .ok m1 := by
  simp [Miner.sealProof, hcur, hp, findAddress_primitive]

/-- The counterexample of C12: the proof sealed for `sampleMiner` is not valid,
and when `seal` returns the current block still carries that proof, whose
content, signature and address are not empty. -/
theorem seal_invalid_proof_not_fresh :
    ∃ m1 cb p, sampleMiner.seal sampleEnv 8 = some (.ok m1) ∧ m1.currentBlock = some cb ∧
      sampleEnv.hasValidProof cb = false ∧ cb.proof = some p ∧
      p.string = .str "rYGxfM3lSA" ∧ p.string ≠ .str "" ∧
      p.signedString ≠ .str "" ∧ p.memAddress ≠ .str "" := by
  refine ⟨_, _, _, rfl, rfl, rfl, rfl, ?_, ?_, ?_, ?_⟩ <;> decide

/-- C12, amended: when the freshly sealed current block fails
`hasValidProof()`, `seal` returns with `lastBlock` as before and with the same
current block (same `id`, `prevBlockHash`, `chainLength` and `transactions`),
which still carries the proof just sealed and rejected: the drawn
`sectorSize`, the random content and its signature. -/
theorem seal_invalid_keeps_sealed_proof (env : Env) (m m1 : Miner) (cb1 : Block) (fuel : Nat)
    (hseal : m.sealProof env = .ok m1) (hcb : m1.currentBlock = some cb1)
    (hinv : env.hasValidProof cb1 = false) :
    ∃ m2 cb0 cb2 p2, m.seal env fuel = some (.ok m2) ∧ m2.lastBlock = m.lastBlock ∧
      m.currentBlock = some cb0 ∧ m2.currentBlock = some cb2 ∧ cb2.id = cb0.id ∧
      cb2.prevBlockHash = cb0.prevBlockHash ∧ cb2.chainLength = cb0.chainLength ∧
      cb2.transactions = cb0.transactions ∧ cb2.proof = some p2 ∧
      p2.sectorSize = (env.random m.randomCalls).floorScaled 25 10 ∧
      p2.string = .str (randomString env (m.randomCalls + 1) p2.sectorSize) ∧
      p2.signedString = env.sign m.keyPair.privateKey p2.string := by
  have hrun : m.seal env fuel = some (.ok m1) := by
    simp [Miner.seal, hseal, hcb, hinv]
  unfold Miner.sealProof at hseal
  split at hseal
  · cases hseal
  · rename_i cb0 hcur
    split at hseal
    · cases hseal
    · rename_i p0 hp0
      simp only [findAddress_primitive] at hseal
      cases hseal
      simp only [Option.some.injEq] at hcb
      subst hcb
      exact ⟨_, cb0, _, _, hrun, rfl, hcur, rfl, rfl, rfl, rfl, rfl, rfl, rfl, rfl, rfl⟩

/-- The scenario of C12, amended: `sampleMiner` with the collaborators of
`sampleEnv`, where no proof is valid. -/
theorem seal_invalid_keeps_sealed_proof_witness :
    ∃ m1 cb1, sampleMiner.sealProof sampleEnv = .ok m1 ∧ m1.currentBlock = some cb1 ∧
      sampleEnv.hasValidProof cb1 = false ∧
      ∃ m2 cb0 cb2 p2, sampleMiner.seal sampleEnv 8 = some (.ok m2) ∧
        m2.lastBlock = sampleMiner.lastBlock ∧
        sampleMiner.currentBlock = some cb0 ∧ m2.currentBlock = some cb2 ∧ cb2.id = cb0.id ∧
        cb2.prevBlockHash = cb0.prevBlockHash ∧ cb2.chainLength = cb0.chainLength ∧
        cb2.transactions = cb0.transactions ∧ cb2.proof = some p2 ∧
        p2.sectorSize = (sampleEnv.random sampleMiner.randomCalls).floorScaled 25 10 ∧
        p2.string = .str (randomString sampleEnv (sampleMiner.randomCalls + 1) p2.sectorSize) ∧
        p2.signedString = sampleEnv.sign sampleMiner.keyPair.privateKey p2.string :=
  ⟨_, _, rfl, rfl, rfl, seal_invalid_keeps_sealed_proof sampleEnv sampleMiner _ _ 8 rfl rfl rfl⟩

/-- C13: `initialize()` schedules one emission of `START_MINING`; once it has
fired and `seal` has run, no emission is pending, whether the sealed proof was
not valid (`startedMiner`) or valid, announced and accepted
(`startedMinerValid`). -/
theorem seal_schedules_no_start_mining :
    startedMiner.pendingStartMining = 1 ∧
    (∃ m1, startedMiner.fireTimer sampleEnv 8 = some (.ok m1) ∧
      m1.randomCalls = startedMiner.randomCalls + 11 ∧ m1.broadcasts.length = 0 ∧
      m1.pendingStartMining = 0) ∧
    startedMinerValid.pendingStartMining = 1 ∧
    (∃ m1, startedMinerValid.fireTimer sampleEnvValid 8 = some (.ok m1) ∧
      m1.broadcasts.length = 1 ∧ m1.pendingStartMining = 0) := by
  refine ⟨by decide, ⟨_, rfl, ?_, ?_, ?_⟩, by decide, ⟨_, rfl, ?_, ?_⟩⟩ <;> decide

/-- The store after `startNewSearch(txSet)` is the store after the
`removeAddress` call that `releasedAtStart` names, or the store as it was when
no call is made. -/
theorem startNewSearch_memory (env : Env) (m : Miner) (txSet : List Tx) :
    (m.startNewSearch env txSet).memory =
      match m.releasedAtStart env txSet with
      | some v => (m.memory.removeAddress v).2
      | none => m.memory := by
  unfold Miner.startNewSearch Miner.releasedAtStart
  simp only []
  cases (List.foldl (fun b tx => env.blockAddTransaction b (env.makeTransaction tx))
    (env.makeBlock m.address m.lastBlock) txSet).proof <;> rfl

/-- The argument of the `removeAddress` call of `startNewSearch` does not
depend on the block the miner was working on. -/
theorem releasedAtStart_currentBlock (env : Env) (m : Miner) (cb : Option Block)
    (txSet : List Tx) :
    Miner.releasedAtStart env { m with currentBlock := cb } txSet
      = m.releasedAtStart env txSet := rfl

/-- With the collaborators of `sampleEnv`, whose `makeBlock` gives blocks
without a proof, `startNewSearch` makes no `removeAddress` call in any state
and for any transaction set. -/
theorem releasedAtStart_sampleEnv (m : Miner) (txSet : List Tx) :
    m.releasedAtStart sampleEnv txSet = none := by
  have hfold : ∀ (txs : List Tx) (b : Block), b.proof = none →
      (txs.foldl (fun b tx => sampleEnv.blockAddTransaction b (sampleEnv.makeTransaction tx))
        b).proof = none := by
    intro txs
    induction txs with
    | nil => intro b hb; simpa using hb
    | cons t rest ih =>
      intro b hb
      simp only [List.foldl_cons]
      apply ih
      simp only [sampleEnv]
      split <;> simp [hb]
  have hmade : (sampleEnv.makeBlock m.address m.lastBlock).proof = none := by
    simp only [sampleEnv]
    split <;> rfl
  simp [Miner.releasedAtStart, hfold txSet _ hmade]

/-- C16: after `seal` has written the content `"rYGxfM3lSA"` into the current
block, `startNewSearch` makes no `removeAddress` call at all when the block
from `makeBlock` has no proof, with an empty and with a residual transaction
set, and calls `removeAddress("made")`, with the string of the new block, when
`makeBlock` supplies a proof. -/
theorem startNewSearch_does_not_release_previous :
    ∃ m1 p, sampleMiner.sealProof sampleEnv = .ok m1 ∧ m1.currentProof = some p ∧
      p.string = .str "rYGxfM3lSA" ∧
      m1.releasedAtStart sampleEnv [] = none ∧
      m1.releasedAtStart sampleEnv [2, 1] = none ∧
      m1.releasedAtStart sampleEnvProof [] = some (.str "made") := by
  refine ⟨_, _, rfl, rfl, ?_, ?_, ?_, ?_⟩ <;> decide

/-! ## Double arithmetic: rounding is monotone -/

theorem roundHalfEven_ge (p d : Nat) : p / d ≤ roundHalfEven p d := by
  unfold roundHalfEven
  split_ifs <;> omega

theorem roundHalfEven_le (p d : Nat) : roundHalfEven p d ≤ p / d + 1 := by
  unfold roundHalfEven
  split_ifs <;> omega

theorem roundHalfEven_one (p : Nat) : roundHalfEven p 1 = p := by
  simp [roundHalfEven, Nat.mod_one]

/-- The floor of a fraction is monotone in the fraction. -/
theorem div_le_div_of_cross {p d p' d' : Nat} (hd : 0 < d) (hd' : 0 < d')
    (h : p * d' ≤ p' * d) : p / d ≤ p' / d' := by
  rw [Nat.le_div_iff_mul_le hd']
  have h1 : p / d * d ≤ p := Nat.div_mul_le_self p d
  have h2 : p / d * d' * d ≤ p' * d := by
    calc p / d * d' * d = p / d * d * d' := by ring
      _ ≤ p * d' := Nat.mul_le_mul_right d' h1
      _ ≤ p' * d := h
  exact Nat.le_of_mul_le_mul_right h2 hd

/-- Rounding to the nearest integer, ties to even, is monotone in the
fraction. -/
theorem roundHalfEven_mono {p d p' d' : Nat} (hd : 0 < d) (hd' : 0 < d')
    (h : p * d' ≤ p' * d) : roundHalfEven p d ≤ roundHalfEven p' d' := by
  have hf := div_le_div_of_cross hd hd' h
  rcases Nat.lt_or_eq_of_le hf with hlt | heq
  · calc roundHalfEven p d ≤ p / d + 1 := roundHalfEven_le p d
      _ ≤ p' / d' := hlt
      _ ≤ roundHalfEven p' d' := roundHalfEven_ge p' d'
  · have hp := Nat.div_add_mod p d
    have hp' := Nat.div_add_mod p' d'
    rw [← heq] at hp'
    have hr : p % d * d' ≤ p' % d' * d := by
      have e1 : p * d' = d * (p / d) * d' + p % d * d' := by
        conv_lhs => rw [← hp]
        ring
      have e2 : p' * d = d * (p / d) * d' + p' % d' * d := by
        conv_lhs => rw [← hp']
        ring
      omega
    unfold roundHalfEven
    rw [← heq]
    have key1 : 2 * (p' % d') < d' → d ≤ 2 * (p % d) → False := by
      intro a b
      have a1 : 2 * (p' % d') * d < d' * d := Nat.mul_lt_mul_of_pos_right a hd
      have b1 : d * d' ≤ 2 * (p % d) * d' := Nat.mul_le_mul_right d' b
      have c1 : 2 * (p % d) * d' = 2 * (p % d * d') := by ring
      have c2 : 2 * (p' % d') * d = 2 * (p' % d' * d) := by ring
      have c3 : d * d' = d' * d := by ring
      omega
    have key2 : 2 * (p' % d') ≤ d' → d < 2 * (p % d) → False := by
      intro a b
      have a1 : 2 * (p' % d') * d ≤ d' * d := Nat.mul_le_mul_right d a
      have b1 : d * d' < 2 * (p % d) * d' := Nat.mul_lt_mul_of_pos_right b hd'
      have c1 : 2 * (p % d) * d' = 2 * (p % d * d') := by ring
      have c2 : 2 * (p' % d') * d = 2 * (p' % d' * d) := by ring
      have c3 : d * d' = d' * d := by ring
      omega
    split_ifs <;> first
      | omega
      | (exfalso; apply key1 <;> omega)
      | (exfalso; apply key2 <;> omega)

/-- The exponent found by `ulpShiftFrom` keeps the scaled fraction below
`2 ^ 53`, lies within the fuel, and is the largest such exponent unless the
fuel ran out. -/
theorem ulpShiftFrom_spec (a b : Nat) :
    ∀ (fuel t : Nat), a * 2 ^ t < 2 ^ 53 * b →
      a * 2 ^ ulpShiftFrom a b fuel t < 2 ^ 53 * b ∧ t ≤ ulpShiftFrom a b fuel t ∧
      ulpShiftFrom a b fuel t ≤ t + fuel ∧
      (ulpShiftFrom a b fuel t < t + fuel →
        2 ^ 53 * b ≤ a * 2 ^ (ulpShiftFrom a b fuel t + 1)) := by
  intro fuel
  induction fuel with
  | zero =>
    intro t h
    simp only [ulpShiftFrom]
    exact ⟨h, le_refl _, le_refl _, fun h1 => absurd h1 (lt_irrefl _)⟩
  | succ f ih =>
    intro t h
    by_cases hc : a * 2 ^ (t + 1) < 2 ^ 53 * b
    · simp only [ulpShiftFrom, hc, if_true]
      obtain ⟨h1, h2, h3, h4⟩ := ih (t + 1) hc
      exact ⟨h1, by omega, by omega, fun h5 => h4 (by omega)⟩
    · simp only [ulpShiftFrom, hc, if_false]
      exact ⟨h, le_refl _, by omega, fun _ => not_lt.mp hc⟩

/-- Rounding to the nearest double is monotone: for fractions
`a / b ≤ a' / b'` below `2 ^ 53`, the double of the first is at most the
double of the second. -/
theorem roundDouble_mono {a b a' b' : Nat} (hb : 0 < b) (hb' : 0 < b')
    (hx : a < 2 ^ 53 * b) (hy : a' < 2 ^ 53 * b') (h : a * b' ≤ a' * b) :
    (roundDouble a b).mant * 2 ^ (roundDouble a' b').shift
      ≤ (roundDouble a' b').mant * 2 ^ (roundDouble a b).shift := by
  by_cases ha : a = 0
  · simp [roundDouble, ha]
  have ha' : a' ≠ 0 := by
    intro h0
    subst h0
    have : a * b' = 0 := by simpa using h
    rcases Nat.mul_eq_zero.mp this with h1 | h1 <;> omega
  simp only [roundDouble, ha, ha', if_false]
  obtain ⟨s1, s2, s3, s4⟩ := ulpShiftFrom_spec a b 1074 0 (by simpa using hx)
  obtain ⟨u1, u2, u3, u4⟩ := ulpShiftFrom_spec a' b' 1074 0 (by simpa using hy)
  generalize ulpShiftFrom a b 1074 0 = t at s1 s2 s3 s4 ⊢
  generalize ulpShiftFrom a' b' 1074 0 = t' at u1 u2 u3 u4 ⊢
  rcases lt_trichotomy t t' with hlt | heq | hgt
  · exfalso
    have h1 : 2 ^ 53 * b ≤ a * 2 ^ t' :=
      le_trans (s4 (by omega))
        (Nat.mul_le_mul_left a (Nat.pow_le_pow_right (by norm_num) (by omega)))
    have h2 : 2 ^ 53 * b * b' ≤ a * 2 ^ t' * b' := Nat.mul_le_mul_right b' h1
    have h3 : a * b' * 2 ^ t' ≤ a' * b * 2 ^ t' := Nat.mul_le_mul_right _ h
    have h4 : a' * 2 ^ t' * b < 2 ^ 53 * b' * b := Nat.mul_lt_mul_of_pos_right u1 hb
    have e1 : a * 2 ^ t' * b' = a * b' * 2 ^ t' := by ring
    have e2 : a' * 2 ^ t' * b = a' * b * 2 ^ t' := by ring
    have e3 : 2 ^ 53 * b' * b = 2 ^ 53 * b * b' := by ring
    omega
  · subst heq
    apply Nat.mul_le_mul_right
    apply roundHalfEven_mono hb hb'
    calc a * 2 ^ t * b' = a * b' * 2 ^ t := by ring
      _ ≤ a' * b * 2 ^ t := Nat.mul_le_mul_right _ h
      _ = a' * 2 ^ t * b := by ring
  · have hn : roundHalfEven (a * 2 ^ t) b ≤ 2 ^ 53 := by
      have := @roundHalfEven_mono (a * 2 ^ t) b (2 ^ 53) 1 hb
        (by norm_num) (by omega)
      rwa [roundHalfEven_one] at this
    have hn' : 2 ^ 52 ≤ roundHalfEven (a' * 2 ^ t') b' := by
      have h5 := u4 (by omega)
      have e5 : a' * 2 ^ (t' + 1) = 2 * (a' * 2 ^ t') := by ring
      have := @roundHalfEven_mono (2 ^ 52) 1 (a' * 2 ^ t') b'
        (by norm_num) hb' (by omega)
      rwa [roundHalfEven_one] at this
    calc roundHalfEven (a * 2 ^ t) b * 2 ^ t' ≤ 2 ^ 53 * 2 ^ t' := Nat.mul_le_mul_right _ hn
      _ = 2 ^ 52 * 2 ^ (t' + 1) := by ring
      _ ≤ roundHalfEven (a' * 2 ^ t') b' * 2 ^ (t' + 1) := Nat.mul_le_mul_right _ hn'
      _ ≤ roundHalfEven (a' * 2 ^ t') b' * 2 ^ t :=
        Nat.mul_le_mul_left _ (Nat.pow_le_pow_right (by norm_num) (by omega))

/-- The number `Math.floor((r * k) + c)` is monotone in the draw `r`, as long
as product and sum stay below `2 ^ 53`. -/
theorem floorScaled_mono {r s : Draw} (k c : Nat) (hr : 0 < r.den) (hs : 0 < s.den)
    (hle : r.num * s.den ≤ s.num * r.den) (hprod : s.num * k < 2 ^ 53 * s.den)
    (hsum : (roundDouble (s.num * k) s.den).mant
        + c * 2 ^ (roundDouble (s.num * k) s.den).shift
      < 2 ^ 53 * 2 ^ (roundDouble (s.num * k) s.den).shift) :
    r.floorScaled k c ≤ s.floorScaled k c := by
  have hcross : r.num * k * s.den ≤ s.num * k * r.den := by
    calc r.num * k * s.den = r.num * s.den * k := by ring
      _ ≤ s.num * r.den * k := Nat.mul_le_mul_right k hle
      _ = s.num * k * r.den := by ring
  have hprodr : r.num * k < 2 ^ 53 * r.den := by
    have h1 : r.num * k * s.den < 2 ^ 53 * r.den * s.den := by
      calc r.num * k * s.den ≤ s.num * k * r.den := hcross
        _ < 2 ^ 53 * s.den * r.den := Nat.mul_lt_mul_of_pos_right hprod hr
        _ = 2 ^ 53 * r.den * s.den := by ring
    exact Nat.lt_of_mul_lt_mul_right h1
  have h1 := roundDouble_mono hr hs hprodr hprod hcross
  simp only [Draw.floorScaled]
  generalize roundDouble (r.num * k) r.den = P at h1 ⊢
  generalize roundDouble (s.num * k) s.den = Q at h1 hsum ⊢
  have hpP : 0 < 2 ^ P.shift := Nat.pow_pos (by norm_num)
  have hpQ : 0 < 2 ^ Q.shift := Nat.pow_pos (by norm_num)
  have hcross2 : (P.mant + c * 2 ^ P.shift) * 2 ^ Q.shift
      ≤ (Q.mant + c * 2 ^ Q.shift) * 2 ^ P.shift := by
    have e1 : (P.mant + c * 2 ^ P.shift) * 2 ^ Q.shift
        = P.mant * 2 ^ Q.shift + c * 2 ^ P.shift * 2 ^ Q.shift := by ring
    have e2 : (Q.mant + c * 2 ^ Q.shift) * 2 ^ P.shift
        = Q.mant * 2 ^ P.shift + c * 2 ^ P.shift * 2 ^ Q.shift := by ring
    omega
  have hsumr : P.mant + c * 2 ^ P.shift < 2 ^ 53 * 2 ^ P.shift := by
    have h2 : (P.mant + c * 2 ^ P.shift) * 2 ^ Q.shift < 2 ^ 53 * 2 ^ P.shift * 2 ^ Q.shift := by
      calc (P.mant + c * 2 ^ P.shift) * 2 ^ Q.shift
          ≤ (Q.mant + c * 2 ^ Q.shift) * 2 ^ P.shift := hcross2
        _ < 2 ^ 53 * 2 ^ Q.shift * 2 ^ P.shift := Nat.mul_lt_mul_of_pos_right hsum hpP
        _ = 2 ^ 53 * 2 ^ P.shift * 2 ^ Q.shift := by ring
    exact Nat.lt_of_mul_lt_mul_right h2
  have h3 := roundDouble_mono hpP hpQ hsumr hsum hcross2
  exact div_le_div_of_cross (Nat.pow_pos (by norm_num)) (Nat.pow_pos (by norm_num)) h3

/-- A double below 1 is at most `1 - 2 ^ (-53)`. -/
theorem belowOne_of_double (r : Draw) (hd : r.isDouble) (hu : r.inUnit) : r.belowOne := by
  obtain ⟨hden, heq⟩ := hd
  unfold Draw.inUnit at hu
  refine ⟨hden, ?_⟩
  by_contra hcon
  have hgt : (2 ^ 53 - 1) * r.den < r.num * 2 ^ 53 := not_le.mp hcon
  have hnum : r.num ≠ 0 := by
    intro h0
    rw [h0] at hgt
    simp at hgt
  obtain ⟨s1, _, _, s4⟩ := ulpShiftFrom_spec r.num r.den 1074 0 (by norm_num; omega)
  simp only [roundDouble, hnum, if_false] at heq
  generalize ulpShiftFrom r.num r.den 1074 0 = t at s1 s4 heq
  have ht : t = 53 := by
    rcases lt_trichotomy t 53 with h1 | h1 | h1
    · exfalso
      have h2 := s4 (by omega)
      have h3 : r.num * 2 ^ (t + 1) ≤ r.num * 2 ^ 53 :=
        Nat.mul_le_mul_left _ (Nat.pow_le_pow_right (by norm_num) (by omega))
      norm_num at h2 h3 hgt
      omega
    · exact h1
    · exfalso
      have h3 : r.num * 2 ^ 54 ≤ r.num * 2 ^ t :=
        Nat.mul_le_mul_left _ (Nat.pow_le_pow_right (by norm_num) (by omega))
      norm_num at s1 h3 hgt
      omega
  subst ht
  have h5 : (2 ^ 53 - 1) * r.den < roundHalfEven (r.num * 2 ^ 53) r.den * r.den := by
    rw [heq]; exact hgt
  have h6 : roundHalfEven (r.num * 2 ^ 53) r.den * r.den < 2 ^ 53 * r.den := by
    rw [heq]
    calc r.num * 2 ^ 53 < r.den * 2 ^ 53 := Nat.mul_lt_mul_of_pos_right hu (by norm_num)
      _ = 2 ^ 53 * r.den := by ring
  have h7 := Nat.lt_of_mul_lt_mul_right h5
  have h8 := Nat.lt_of_mul_lt_mul_right h6
  omega

/-! ## Claims on the random draws of a round -/

/-- The index `Math.floor(Math.random() * characters.length)` is below 62 for
every double in `[0, 1)`. -/
theorem floorScaled_index_lt (r : Draw) (h : r.belowOne) :
    r.floorScaled characters.length 0 < 62 := by
  have hlen : characters.length = 62 := by decide
  rw [hlen]
  have hm : r.floorScaled 62 0 ≤ drawMax53.floorScaled 62 0 :=
    floorScaled_mono 62 0 h.1 (by decide) h.2 (by decide) (by decide)
  have he : drawMax53.floorScaled 62 0 = 61 := by decide
  omega

/-- An index below 62 selects one character of the table. -/
theorem charAt_characters (i : Nat) (h : i < 62) :
    ∃ c, c ∈ characters.data ∧ charAt characters i = String.singleton c := by
  have hl : i < characters.data.length := by
    have : characters.data.length = 62 := by decide
    omega
  refine ⟨characters.data.get ⟨i, hl⟩, List.get_mem _ _ _, ?_⟩
  unfold charAt
  rw [List.get?_eq_get hl]

/-- The loop of `seal` builds a string of exactly `n` characters of the table
when every draw is a double in `[0, 1)`. -/
theorem randomString_shape (env : Env) (start : Nat) (hdraws : ∀ i, (env.random i).belowOne) :
    ∀ n, (randomString env start n).length = n ∧
      ∀ c ∈ (randomString env start n).data, c ∈ characters.data := by
  intro n
  induction n with
  | zero => exact ⟨rfl, by intro c hc; cases hc⟩
  | succ k ih =>
    obtain ⟨c, hc, heq⟩ := charAt_characters _ (floorScaled_index_lt _ (hdraws (start + k)))
    simp only [randomString, heq]
    refine ⟨?_, ?_⟩
    · rw [String.length_append, ih.1]
      rfl
    · intro x hx
      rw [String.data_append] at hx
      rcases List.mem_append.mp hx with h1 | h1
      · exact ih.2 x h1
      · have : x = c := by simpa [String.singleton] using h1
        rw [this]
        exact hc

/-- C14: when every draw is a double in `[0, 1)` and the current block holds a
proof object, `seal` writes a content whose length is the `sectorSize` written
by the same call and whose characters all come from the table of the 62
characters `A-Z`, `a-z`, `0-9`. -/
theorem seal_content_shape (env : Env) (m : Miner) (cb : Block) (p0 : Proof)
    (hdraws : ∀ i, (env.random i).isDouble ∧ (env.random i).inUnit)
    (hcur : m.currentBlock = some cb) (hp : cb.proof = some p0) :
    ∃ m1 p s, m.sealProof env = .ok m1 ∧ m1.currentProof = some p ∧ p.string = .str s ∧
      s.length = p.sectorSize ∧ ∀ c ∈ s.data, c ∈ characters.data ∧ c.isAlphanum = true := by
  have hbelow : ∀ i, (env.random i).belowOne :=
    fun i => belowOne_of_double _ (hdraws i).1 (hdraws i).2
  have hshape := randomString_shape env (m.randomCalls + 1) hbelow
    ((env.random m.randomCalls).floorScaled 25 10)
  have halnum : ∀ c ∈ characters.data, c.isAlphanum = true := by decide
  obtain ⟨m1, hseal⟩ := sealProof_returns env m cb p0 hcur hp
  refine ⟨m1, ?_⟩
  have hseal1 := hseal
  simp only [Miner.sealProof, hcur, hp, findAddress_primitive] at hseal1
  cases hseal1
  exact ⟨_, _, hseal, rfl, rfl, hshape.1,
    fun c hc => ⟨hshape.2 c hc, halnum c (hshape.2 c hc)⟩⟩

/-- The draws of `sampleEnvD` are doubles in `[0, 1)`. -/
theorem sampleEnvD_double (i : Nat) :
    (sampleEnvD.random i).isDouble ∧ (sampleEnvD.random i).inUnit := by
  show Draw.isDouble { num := (7 * i + 3) % 16, den := 16 } ∧
    Draw.inUnit { num := (7 * i + 3) % 16, den := 16 }
  have h : (7 * i + 3) % 16 < 16 := Nat.mod_lt _ (by decide)
  generalize (7 * i + 3) % 16 = k at h
  interval_cases k <;> decide

/-- The scenario of C14: `sampleMiner` with the draws of `sampleEnvD`, which
give the 25 characters `"Df6XyPqHiAb2TuLmDf6XyPqHi"`. -/
theorem seal_content_shape_witness :
    (∃ m1, sampleMiner.sealProof sampleEnvD = .ok m1 ∧
      m1.currentProof.map (fun p => p.string) = some (.str "Df6XyPqHiAb2TuLmDf6XyPqHi")) ∧
    ∃ m1 p s, sampleMiner.sealProof sampleEnvD = .ok m1 ∧ m1.currentProof = some p ∧
      p.string = .str s ∧ s.length = p.sectorSize ∧
      ∀ c ∈ s.data, c ∈ characters.data ∧ c.isAlphanum = true :=
  ⟨⟨_, rfl, by decide⟩, seal_content_shape sampleEnvD sampleMiner _ _ sampleEnvD_double rfl rfl⟩

/-- The product `r * 25` rounds to a double below 25 for every double `r` in
`[0, 1)`, so the sum with 10 stays far below `2 ^ 53`. -/
theorem sectorSize_sum_bound (r : Draw) (h : r.belowOne) :
    (roundDouble (r.num * 25) r.den).mant + 10 * 2 ^ (roundDouble (r.num * 25) r.den).shift
      < 2 ^ 53 * 2 ^ (roundDouble (r.num * 25) r.den).shift := by
  have hx : r.num * 25 < 2 ^ 53 * r.den := by
    have := h.2
    have := h.1
    norm_num at *
    omega
  have hcross : r.num * 25 * drawMax53.den ≤ drawMax53.num * 25 * r.den := by
    have := h.2
    simp only [drawMax53]
    norm_num at *
    omega
  have hm := @roundDouble_mono (r.num * 25) r.den (drawMax53.num * 25) drawMax53.den
    h.1 (by decide) hx (by decide) hcross
  have he : roundDouble (drawMax53.num * 25) drawMax53.den
      = { mant := 7036874417766399, shift := 48 } := by decide
  rw [he] at hm
  simp only [] at hm
  generalize roundDouble (r.num * 25) r.den = P at hm ⊢
  have hpos : 0 < 2 ^ P.shift := Nat.pow_pos (by norm_num)
  generalize 2 ^ P.shift = X at hm hpos ⊢
  norm_num at hm ⊢
  omega

/-- The counterexample of C15: the largest double below 1 is a double in
`[0, 1)`; its product with 25 rounds to `25 - 2 ^ (-48)`, the sum with 10 lies
halfway between two doubles and rounds to the even one, 35, and the sector
size is 35. -/
theorem sectorSize_35_at_largest_double :
    drawMax53.isDouble ∧ drawMax53.inUnit ∧
    roundDouble drawMax53.num drawMax53.den = { mant := 2 ^ 53 - 1, shift := 53 } ∧
    roundDouble (drawMax53.num * 25) drawMax53.den = { mant := 25 * 2 ^ 48 - 1, shift := 48 } ∧
    roundDouble (25 * 2 ^ 48 - 1 + 10 * 2 ^ 48) (2 ^ 48) = { mant := 35 * 2 ^ 47, shift := 47 } ∧
    drawMax53.floorScaled 25 10 = 35 := by
  decide

/-- C15, amended: for a draw `r` that is a double in `[0, 1)` the `sectorSize`
that `startNewSearch` and `seal` write is `Math.floor((r * 25) + 10)`, it lies
between 10 and 35, and between 10 and 34 when `r` is at most
`1 - 2 ^ (-52)`; the values 10 and 34 are attained at such draws. -/
theorem sectorSize_range (env : Env) (m : Miner) (txSet : List Tx)
    (hd : (env.random m.randomCalls).isDouble) (hu : (env.random m.randomCalls).inUnit) :
    (∃ p, (m.startNewSearch env txSet).currentProof = some p ∧
      p.sectorSize = (env.random m.randomCalls).floorScaled 25 10) ∧
    (∀ m1, m.sealProof env = .ok m1 → ∃ p, m1.currentProof = some p ∧
      p.sectorSize = (env.random m.randomCalls).floorScaled 25 10) ∧
    10 ≤ (env.random m.randomCalls).floorScaled 25 10 ∧
    (env.random m.randomCalls).floorScaled 25 10 ≤ 35 ∧
    ((env.random m.randomCalls).belowOne52 →
      (env.random m.randomCalls).floorScaled 25 10 ≤ 34) ∧
    (drawZero.isDouble ∧ drawZero.belowOne52 ∧ drawZero.floorScaled 25 10 = 10) ∧
    (drawMax52.isDouble ∧ drawMax52.belowOne52 ∧ drawMax52.floorScaled 25 10 = 34) := by
  have h := belowOne_of_double _ hd hu
  have hzero : drawZero.floorScaled 25 10 ≤ (env.random m.randomCalls).floorScaled 25 10 :=
    floorScaled_mono 25 10 (by decide) h.1 (by simp [drawZero])
      (by have := h.2; have := h.1; norm_num at *; omega) (sectorSize_sum_bound _ h)
  have hmax : (env.random m.randomCalls).floorScaled 25 10 ≤ drawMax53.floorScaled 25 10 :=
    floorScaled_mono 25 10 h.1 (by decide) h.2 (by decide) (by decide)
  have e0 : drawZero.floorScaled 25 10 = 10 := by decide
  have e53 : drawMax53.floorScaled 25 10 = 35 := by decide
  have e52 : drawMax52.floorScaled 25 10 = 34 := by decide
  refine ⟨⟨_, rfl, rfl⟩, ?_, by omega, by omega, ?_, by decide, by decide⟩
  · intro m1 hseal
    unfold Miner.sealProof at hseal
    split at hseal
    · cases hseal
    · split at hseal
      · cases hseal
      · simp only [findAddress_primitive] at hseal
        cases hseal
        exact ⟨_, rfl, rfl⟩
  · intro h52
    have hm : (env.random m.randomCalls).floorScaled 25 10 ≤ drawMax52.floorScaled 25 10 :=
      floorScaled_mono 25 10 h52.1 (by decide) h52.2 (by decide) (by decide)
    omega

/-- The scenario of C15, amended: the first draw of `sampleEnvD`, `3 / 16`,
gives the sector size 14 in `startNewSearch`. -/
theorem sectorSize_range_witness :
    (sampleEnvD.random newMiner.randomCalls).floorScaled 25 10 = 14 ∧
    ((∃ p, (newMiner.startNewSearch sampleEnvD []).currentProof = some p ∧
      p.sectorSize = (sampleEnvD.random newMiner.randomCalls).floorScaled 25 10) ∧
    (∀ m1, newMiner.sealProof sampleEnvD = .ok m1 → ∃ p, m1.currentProof = some p ∧
      p.sectorSize = (sampleEnvD.random newMiner.randomCalls).floorScaled 25 10) ∧
    10 ≤ (sampleEnvD.random newMiner.randomCalls).floorScaled 25 10 ∧
    (sampleEnvD.random newMiner.randomCalls).floorScaled 25 10 ≤ 35 ∧
    ((sampleEnvD.random newMiner.randomCalls).belowOne52 →
      (sampleEnvD.random newMiner.randomCalls).floorScaled 25 10 ≤ 34) ∧
    (drawZero.isDouble ∧ drawZero.belowOne52 ∧ drawZero.floorScaled 25 10 = 10) ∧
    (drawMax52.isDouble ∧ drawMax52.belowOne52 ∧ drawMax52.floorScaled 25 10 = 34)) :=
  ⟨by decide,
    sectorSize_range sampleEnvD newMiner [] (sampleEnvD_double _).1 (sampleEnvD_double _).2⟩

end SpartanGold
